import Mathlib

/-!
# Verification of the bd-races entity-reconciliation scripts

Shallow embedding of the JavaScript sources (`fix_fblinks` script = the
"fix" script, `check_events.js`, `verify_fblinks` logic in
`page/js/main.js`) over `List Char`, together with proofs deciding the
frozen claims about the natural-language specification.

Strings are modelled as `List Char`.  The JavaScript string operations
used by the sources (`toLowerCase`, `trim`, `replace` with the concrete
regular expressions appearing in the code, `startsWith`, `match`) are
embedded as executable functions on `List Char`.  Case mapping is
modelled on the ASCII range (all data handled by the scripts is ASCII);
`\s` and `trim` use the full ECMAScript WhiteSpace/LineTerminator set.
Numeric similarity scores are modelled as exact rationals `ℚ`; the
scripts only compare scores against the literals `0.7`, `0` and `1`,
and at the string lengths involved the IEEE doubles computed by the
code decide these comparisons exactly as the rationals do.
-/

namespace BdRaces

/-- ECMAScript WhiteSpace ∪ LineTerminator: the character class `\s`,
    which is also exactly the set stripped by `String.prototype.trim`. -/
def isJsSpace (c : Char) : Bool :=
  c = ' ' ∨ c = '\t' ∨ c = '\n' ∨ c = '\r' ∨ c = '\x0b' ∨ c = '\x0c' ∨
  c = '\u00a0' ∨ c = '\u1680' ∨ ('\u2000' ≤ c ∧ c ≤ '\u200a') ∨
  c = '\u2028' ∨ c = '\u2029' ∨ c = '\u202f' ∨ c = '\u205f' ∨
  c = '\u3000' ∨ c = '\ufeff'

/-- `String.prototype.toLowerCase` restricted to the ASCII range
    (the only case mapping exercised by the scripts' data). -/
def jsToLower (c : Char) : Char :=
  if 'A' ≤ c ∧ c ≤ 'Z' then Char.ofNat (c.toNat + 32) else c

/-- `trim()`: strip leading and trailing `isJsSpace` characters. -/
def jsTrim (l : List Char) : List Char :=
  ((l.dropWhile isJsSpace).reverse.dropWhile isJsSpace).reverse

/-- Case-insensitive match of the literal pattern `pat` at the head of
    `l`; on success returns the remainder of `l`. -/
def stripTokCI : List Char → List Char → Option (List Char)
  | [], l => some l
  | _ :: _, [] => none
  | p :: ps, c :: cs => if jsToLower c = p then stripTokCI ps cs else none

/-- Worker for `collapseWs`; the flag records whether we are inside a
    whitespace run whose single `' '` has already been emitted. -/
def collapseWsAux : Bool → List Char → List Char
  | _, [] => []
  | inRun, c :: rest =>
    if isJsSpace c then
      if inRun then collapseWsAux true rest
      else ' ' :: collapseWsAux true rest
    else c :: collapseWsAux false rest

/-- `replace(/\s+/g, ' ')`: collapse every maximal run of whitespace
    to a single space. -/
def collapseWs (l : List Char) : List Char :=
  collapseWsAux false l

/-- `replace(/\d+k$/i, '')` (and, for `suf = "km"`, `/\d+km$/i`):
    if the string ends with one-or-more digits followed by the literal
    suffix (case-insensitively), remove that trailing match.  The
    leftmost-match rule of the regex makes the digit run maximal. -/
def stripDistSuffix (suf : List Char) (l : List Char) : List Char :=
  match stripTokCI suf.reverse l.reverse with
  | none => l
  | some rest =>
    match rest with
    | d :: _ => if d.isDigit then (rest.dropWhile Char.isDigit).reverse else l
    | [] => l

/-- `replace(/TOK\s*\d+/i, '')` for a literal lowercase token `TOK`:
    remove the leftmost occurrence of the token followed by optional
    whitespace and a (maximal) nonempty digit run. -/
def stripTokNum (tok : List Char) : List Char → List Char
  | [] => []
  | c :: rest =>
    match stripTokCI tok (c :: rest) with
    | some after =>
      let afterWs := after.dropWhile isJsSpace
      match afterWs with
      | d :: _ =>
        if d.isDigit then afterWs.dropWhile Char.isDigit
        else c :: stripTokNum tok rest
      | [] => c :: stripTokNum tok rest
    | none => c :: stripTokNum tok rest

/-- `replace(/\d{4}/g, '2025')`: replace every (left-to-right,
    non-overlapping) run of exactly four digits by `2025`. -/
def replaceYears : List Char → List Char
  | a :: b :: c :: d :: rest =>
    if a.isDigit ∧ b.isDigit ∧ c.isDigit ∧ d.isDigit
    then '2' :: '0' :: '2' :: '5' :: replaceYears rest
    else a :: replaceYears (b :: c :: d :: rest)
  | l => l

/-- `replace(/TOK.*$/i, '')` for a literal lowercase token `TOK`:
    drop everything from the leftmost occurrence of the token on.
    (In the pipeline this stage only ever runs after `\s+ → ' '`, so
    the input contains no line terminators and `.*$` reaches the end.) -/
def stripFromTok (tok : List Char) : List Char → List Char
  | [] => []
  | c :: rest =>
    match stripTokCI tok (c :: rest) with
    | some _ => []
    | none => c :: stripFromTok tok rest

/-- `normalizeEventName` of the fix script (`fix_fblinks`). -/
def normalizeEventName (name : List Char) : List Char :=
  if name = [] then []
  else
    jsTrim <|
    stripFromTok "sponsored by".toList <|
    stripFromTok "powered by".toList <|
    replaceYears <|
    stripTokNum "season".toList <|
    stripTokNum "edition".toList <|
    stripDistSuffix "km".toList <|
    stripDistSuffix "k".toList <|
    collapseWs <|
    (name.map jsToLower).filter (fun c => ¬ c = '|')

/-- `normalizeEventName` of the verification script
    (`page/js/main.js`): same pipeline but without the season, year,
    "powered by" and "sponsored by" stages. -/
def verifyNormalizeEventName (name : List Char) : List Char :=
  if name = [] then []
  else
    jsTrim <|
    stripTokNum "edition".toList <|
    stripDistSuffix "km".toList <|
    stripDistSuffix "k".toList <|
    collapseWs <|
    (name.map jsToLower).filter (fun c => ¬ c = '|')

/-! ## Levenshtein distance

`levenshteinDistance` embeds the dynamic program of the source
(`matrix[i][j]` over rows `i ≤ str2.length`, columns `j ≤ str1.length`,
kept as one row at a time).  `levSpec` is the textbook recursive
definition of the single-character insert/delete/substitute edit
distance; they are proved equal. -/

/-- The classic recursive Levenshtein edit distance (the
    specification's "classic single-character insert/delete/substitute
    edit distance"). -/
def levSpec : List Char → List Char → ℕ
  | [], t => t.length
  | s, [] => s.length
  | x :: xs, y :: ys =>
    if x = y then levSpec xs ys
    else 1 + min (levSpec xs ys) (min (levSpec (x :: xs) ys) (levSpec xs (y :: ys)))
  termination_by s t => s.length + t.length
  decreasing_by all_goals (simp only [List.length_cons]; omega)

/-- One inner iteration block of the source's DP: given the previous
    row (starting at column `j-1`), the value just computed for the
    current row at column `j-1` (`left`) and the remaining characters
    of `str1`, produce the current row's entries for columns `j, …`. -/
def levBuildRow (yc : Char) : List Char → List ℕ → ℕ → List ℕ
  | [], _, _ => []
  | _ :: _, [], _ => []
  | xc :: xs, diag :: prest, left =>
    let up := prest.headD 0
    let cur := if yc = xc then diag else min (diag + 1) (min (left + 1) (up + 1))
    cur :: levBuildRow yc xs prest cur

/-- The source's outer DP loop over the characters of `str2`; `i` is
    the current row index and `prev` the previous row. -/
def levGo (s1 : List Char) : List Char → ℕ → List ℕ → List ℕ
  | [], _, prev => prev
  | yc :: ys, i, prev => levGo s1 ys (i + 1) (i :: levBuildRow yc s1 prev i)

/-- `levenshteinDistance` of the fix script: row-by-row dynamic
    program, result `matrix[str2.length][str1.length]`. -/
def levenshteinDistance (str1 str2 : List Char) : ℕ :=
  (levGo str1 str2 1 (List.range (str1.length + 1))).getLastD 0

/-- The intended contents of a DP row: for the already-consumed
    (reversed) part `O` of `str2`, entry `j` is the edit distance
    between the reversed prefix of `str1` ending at column `j` and
    `O`.  `R` is the reversed consumed part of `str1`, `xs` the rest. -/
def levRowSpec (O : List Char) : List Char → List Char → List ℕ
  | R, [] => [levSpec R O]
  | R, x :: xs => levSpec R O :: levRowSpec O (x :: R) xs

/-! ## Similarity scorer (fix script) -/

/-- `calculateSimilarity` of the fix script.  JavaScript numbers are
    modelled as exact rationals; `!str` is string emptiness. -/
def calculateSimilarity (str1 str2 : List Char) : ℚ :=
  if str1 = [] ∨ str2 = [] then 0
  else
    let longer := if str1.length > str2.length then str1 else str2
    let shorter := if str1.length > str2.length then str2 else str1
    if longer.length = 0 then 1
    else ((longer.length : ℚ) - (levenshteinDistance longer shorter : ℚ)) / (longer.length : ℚ)

/-! ## Catalog records, reference index, reconciler (fix script) -/

/-- A record of `events.json` (only the fields the scripts read). -/
structure EventRec where
  name : List Char
  fbLink : Option (List Char)
deriving DecidableEq, Repr

/-- An entry of the raw-event reference index built by
    `buildRawEventIndex`: id, extracted name, its normalization. -/
structure RawEventEntry where
  eventId : List Char
  eventName : List Char
  normalizedName : List Char
deriving DecidableEq, Repr

/-- The reference index `id → entry`; a JavaScript object modelled as
    an association list in iteration order (keys unique). -/
def RawEventIndex : Type := List (List Char × RawEventEntry)

/-- The best-match record produced by `findCorrectEventId`. -/
structure MatchResult where
  eventId : List Char
  eventName : List Char
  similarity : ℚ
deriving DecidableEq, Repr

/-- One entry of the fix report pushed by `fixFacebookLinks`. -/
structure FixRec where
  eventIndex : ℕ
  eventName : List Char
  oldEventId : List Char
  oldEventName : List Char
  newEventId : List Char
  newEventName : List Char
  similarity : ℚ
  oldLink : List Char
  newLink : List Char
deriving DecidableEq, Repr

/-- JavaScript object property access `rawEventIndex[id]`. -/
def indexLookup (idx : List (List Char × RawEventEntry)) (id : List Char) :
    Option RawEventEntry :=
  (idx.find? (fun p => p.1 = id)).map (fun p => p.2)

/-- Case-sensitive match of the literal `pat` at the head of `l`;
    on success returns the remainder. -/
def matchTok : List Char → List Char → Option (List Char)
  | [], l => some l
  | _ :: _, [] => none
  | p :: ps, c :: cs => if c = p then matchTok ps cs else none

/-- `str.match(/TOK(\d+)/)?.[1]`: find the leftmost occurrence of the
    literal `tok` followed by at least one digit and return the maximal
    digit run (the first capture group). -/
def extractDigitsAfterTok (tok : List Char) : List Char → Option (List Char)
  | [] => none
  | c :: rest =>
    match matchTok tok (c :: rest) with
    | some after =>
      match after with
      | d :: _ =>
        if d.isDigit then some (after.takeWhile Char.isDigit)
        else extractDigitsAfterTok tok rest
      | [] => extractDigitsAfterTok tok rest
    | none => extractDigitsAfterTok tok rest

/-- Case-insensitive variant (for the `/i` flag). -/
def extractDigitsAfterTokCI (tok : List Char) : List Char → Option (List Char)
  | [] => none
  | c :: rest =>
    match stripTokCI tok (c :: rest) with
    | some after =>
      match after with
      | d :: _ =>
        if d.isDigit then some (after.takeWhile Char.isDigit)
        else extractDigitsAfterTokCI tok rest
      | [] => extractDigitsAfterTokCI tok rest
    | none => extractDigitsAfterTokCI tok rest

/-- `event.fbLink.match(/events\/(\d+)/)?.[1]` of the fix script. -/
def extractIdFromLink (link : List Char) : Option (List Char) :=
  extractDigitsAfterTok "events/".toList link

/-- `fbLink.match(/facebook\.com\/events\/(\d+)/i)?.[1]` of
    `check_events.js`. -/
def extractIdFb (link : List Char) : Option (List Char) :=
  extractDigitsAfterTokCI "facebook.com/events/".toList link

/-- The scan of `findCorrectEventId` over `Object.entries(index)`,
    carrying `bestMatch` and `bestSimilarity`. -/
def findGo (nt : List Char) :
    List (List Char × RawEventEntry) → Option MatchResult → ℚ → Option MatchResult
  | [], best, _ => best
  | (id, r) :: rest, best, bestSim =>
    let s := calculateSimilarity nt r.normalizedName
    if s > bestSim ∧ s > 7/10 then
      findGo nt rest (some ⟨id, r.eventName, s⟩) s
    else findGo nt rest best bestSim

/-- `findCorrectEventId` of the fix script. -/
def findCorrectEventId (eventName : List Char)
    (idx : List (List Char × RawEventEntry)) : Option MatchResult :=
  findGo (normalizeEventName eventName) idx none 0

/-- The replacement link written by the fix script. -/
def newFbLink (id : List Char) : List Char :=
  "https://www.facebook.com/events/".toList ++ id

/-- The per-record body of the loop of `fixFacebookLinks` (0-based
    position `i`; the report uses `i + 1`): returns the fix entry, if
    any, and the (possibly updated) record. -/
def processEvent (idx : List (List Char × RawEventEntry)) (i : ℕ) (ev : EventRec) :
    Option FixRec × EventRec :=
  match ev.fbLink with
  | none => (none, ev)
  | some link =>
    match extractIdFromLink link with
    | none => (none, ev)
    | some currentId =>
      match indexLookup idx currentId with
      | none => (none, ev)
      | some currentRaw =>
        let currentSimilarity :=
          calculateSimilarity (normalizeEventName ev.name) currentRaw.normalizedName
        if currentSimilarity ≥ 7/10 then (none, ev)
        else
          match findCorrectEventId ev.name idx with
          | some m =>
            if ¬ m.eventId = currentId then
              (some { eventIndex := i + 1, eventName := ev.name, oldEventId := currentId,
                      oldEventName := currentRaw.eventName, newEventId := m.eventId,
                      newEventName := m.eventName, similarity := m.similarity,
                      oldLink := link, newLink := newFbLink m.eventId },
               { ev with fbLink := some (newFbLink m.eventId) })
            else (none, ev)
          | none => (none, ev)

/-- The loop of `fixFacebookLinks` from position `i` on; collects the
    fix report entries in order and the updated records. -/
def runFixAux (idx : List (List Char × RawEventEntry)) :
    ℕ → List EventRec → List FixRec × List EventRec
  | _, [] => ([], [])
  | i, ev :: rest =>
    let step := processEvent idx i ev
    let tailRes := runFixAux idx (i + 1) rest
    match step.1 with
    | some fr => (fr :: tailRes.1, step.2 :: tailRes.2)
    | none => (tailRes.1, step.2 :: tailRes.2)

/-- `fixFacebookLinks` (pure core): the source increments `fixedCount`
    exactly when it pushes onto `fixes`, so the count is the length of
    the report. -/
def fixFacebookLinks (idx : List (List Char × RawEventEntry)) (events : List EventRec) :
    ℕ × List FixRec × List EventRec :=
  let res := runFixAux idx 0 events
  (res.1.length, res.1, res.2)

/-! ## Consistency checker (`check_events.js`) -/

/-- `extractIdsFromEvents`: every id referenced from a record link, in
    order, with multiplicity. -/
def extractIdsFromEvents (events : List EventRec) : List (List Char) :=
  events.filterMap (fun ev => ev.fbLink.bind extractIdFb)

/-- First-occurrence deduplication (JavaScript `Set`/`Map` insertion
    order). -/
def dedupKeepFirst : List (List Char) → List (List Char)
  | [] => []
  | x :: xs => x :: (dedupKeepFirst xs).filter (fun y => ¬ y = x)

/-- Lexicographic (UTF-16 code order) comparison used by the default
    `Array.prototype.sort` on the ASCII digit strings involved. -/
def lexLt : List Char → List Char → Bool
  | [], [] => false
  | [], _ :: _ => true
  | _ :: _, [] => false
  | a :: as, b :: bs => if a < b then true else if b < a then false else lexLt as bs

def insertLex (x : List Char) : List (List Char) → List (List Char)
  | [] => [x]
  | y :: ys => if lexLt y x then y :: insertLex x ys else x :: y :: ys

def sortLex (l : List (List Char)) : List (List Char) :=
  l.foldr insertLex []

def insertLexPair (x : List Char × ℕ) : List (List Char × ℕ) → List (List Char × ℕ)
  | [] => [x]
  | y :: ys => if lexLt y.1 x.1 then y :: insertLexPair x ys else x :: y :: ys

def sortLexPairs (l : List (List Char × ℕ)) : List (List Char × ℕ) :=
  l.foldr insertLexPair []

/-- The three findings lists of `analyze` (the summary counters of the
    source are derived from these and not separately modelled). -/
structure AnalyzeResult where
  missingInEventsJson : List (List Char)
  missingRawFiles : List (List Char)
  duplicates : List (List Char × ℕ)
deriving DecidableEq, Repr

/-- `analyze` of `check_events.js`, starting from the raw-corpus id
    set and the parsed records. -/
def analyze (rawIds : List (List Char)) (events : List EventRec) : AnalyzeResult :=
  let eventIds := extractIdsFromEvents events
  let eventIdSet := dedupKeepFirst eventIds
  let missing1 := sortLex (rawIds.filter (fun id => ¬ id ∈ eventIdSet))
  let missing2 := sortLex (eventIdSet.filter (fun id => ¬ id ∈ rawIds))
  let entries := (eventIdSet.map (fun id => (id, eventIds.count id))).filter (fun p => 1 < p.2)
  AnalyzeResult.mk missing1 missing2 (sortLexPairs entries)

/-! ## Stability predicates used in the idempotence analysis -/

/-- A character that every pipeline stage of the normalizers leaves
    alone: already lower-case, not a pipe, only plain-space whitespace,
    and not a digit. -/
def normStableChar (c : Char) : Bool :=
  jsToLower c = c ∧ ¬ c = '|' ∧ (isJsSpace c = true → c = ' ') ∧ c.isDigit = false

/-- No two adjacent plain spaces. -/
def noDoubleSpace : List Char → Bool
  | a :: b :: rest => !(a == ' ' && b == ' ') && noDoubleSpace (b :: rest)
  | _ => true

/-- Does `l` contain an occurrence of the literal token `tok`
    (case-insensitively)? -/
def hasTokCI (tok : List Char) : List Char → Bool
  | [] => (stripTokCI tok []).isSome
  | c :: rest => (stripTokCI tok (c :: rest)).isSome || hasTokCI tok rest

/-- Strings on which `normalizeEventName` is the identity: every
    character is stable, no double spaces, trimmed, and no
    "powered by"/"sponsored by" occurrence. -/
def normStable (l : List Char) : Bool :=
  l.all normStableChar && noDoubleSpace l &&
  !(l.headD 'x' == ' ') && !(l.getLastD 'x' == ' ') &&
  !hasTokCI "powered by".toList l && !hasTokCI "sponsored by".toList l

/-- The stages shared by the two normalizers up to whitespace
    collapsing (used to state when they agree). -/
def sharedStem (x : List Char) : List Char :=
  collapseWs ((x.map jsToLower).filter (fun c => ¬ c = '|'))

/-! ## JSON parsing (`parseEventsJson`)

`JSON.parse` is modelled by an executable recursive-descent parser
over `List Char` following the ECMA-404 grammar.  Numbers are kept as
an exact pair mantissa × 10^exponent (the scripts never compute with
parsed numbers); `\uXXXX` escapes denoting surrogate halves are outside
the model.  Fuel bounds the recursion; the initial fuel is always
sufficient for the inputs parsed here. -/

inductive JsonVal where
  | null : JsonVal
  | bool (b : Bool) : JsonVal
  | num (mantissa exp10 : ℤ) : JsonVal
  | str (s : List Char) : JsonVal
  | arr (vs : List JsonVal) : JsonVal
  | obj (kvs : List (List Char × JsonVal)) : JsonVal
deriving Repr

/-- JSON insignificant whitespace (ECMA-404). -/
def jsonWs (c : Char) : Bool :=
  c = ' ' ∨ c = '\t' ∨ c = '\n' ∨ c = '\r'

def skipWs (l : List Char) : List Char := l.dropWhile jsonWs

def hexVal (c : Char) : Option ℕ :=
  if '0' ≤ c ∧ c ≤ '9' then some (c.toNat - 48)
  else if 'a' ≤ c ∧ c ≤ 'f' then some (c.toNat - 87)
  else if 'A' ≤ c ∧ c ≤ 'F' then some (c.toNat - 55)
  else none

def escChar (e : Char) : Option Char :=
  if e = '"' then some '"'
  else if e = '\\' then some '\\'
  else if e = '/' then some '/'
  else if e = 'b' then some '\x08'
  else if e = 'f' then some '\x0c'
  else if e = 'n' then some '\n'
  else if e = 'r' then some '\r'
  else if e = 't' then some '\t'
  else none

/-- The body of a JSON string after the opening quote: returns the
    decoded content and the input after the closing quote. -/
def parseStringBody : ℕ → List Char → Option (List Char × List Char)
  | 0, _ => none
  | fuel + 1, l =>
    match l with
    | [] => none
    | c :: rest =>
      if c = '"' then some ([], rest)
      else if c = '\\' then
        match rest with
        | [] => none
        | e :: r2 =>
          if e = 'u' then
            match r2 with
            | h1 :: h2 :: h3 :: h4 :: r3 =>
              match hexVal h1, hexVal h2, hexVal h3, hexVal h4 with
              | some a, some b, some c4, some d =>
                let code := ((a * 16 + b) * 16 + c4) * 16 + d
                if code.isValidChar then
                  match parseStringBody fuel r3 with
                  | some (sres, r4) => some (Char.ofNat code :: sres, r4)
                  | none => none
                else none
              | _, _, _, _ => none
            | _ => none
          else
            match escChar e with
            | some ec =>
              match parseStringBody fuel r2 with
              | some (sres, r3) => some (ec :: sres, r3)
              | none => none
            | none => none
      else if c.toNat < 32 then none
      else
        match parseStringBody fuel rest with
        | some (sres, r2) => some (c :: sres, r2)
        | none => none

def natFromDigits (ds : List Char) : ℕ :=
  ds.foldl (fun a c => a * 10 + (c.toNat - 48)) 0

/-- The optional fraction part; threads the integer mantissa. -/
def parseFrac (m : ℤ) (l : List Char) : Option (ℤ × ℤ × List Char) :=
  match l with
  | '.' :: rf =>
    let fs := rf.takeWhile Char.isDigit
    if fs = [] then none
    else some (m * (10 : ℤ) ^ fs.length + (natFromDigits fs : ℤ),
      -(fs.length : ℤ), rf.dropWhile Char.isDigit)
  | _ => some (m, 0, l)

/-- The optional exponent part. -/
def parseExp (l : List Char) : Option (ℤ × List Char) :=
  match l with
  | [] => some (0, [])
  | e :: r =>
    if e = 'e' ∨ e = 'E' then
      let signedRest : Bool × List Char :=
        match r with
        | '-' :: rr => (true, rr)
        | '+' :: rr => (false, rr)
        | _ => (false, r)
      let es := signedRest.2.takeWhile Char.isDigit
      if es = [] then none
      else some ((if signedRest.1 then -(natFromDigits es : ℤ) else (natFromDigits es : ℤ)),
        signedRest.2.dropWhile Char.isDigit)
    else some (0, e :: r)

/-- A JSON number (ECMA-404: `-?(0|[1-9][0-9]*)(\.[0-9]+)?([eE][+-]?[0-9]+)?`). -/
def parseNumber (l : List Char) : Option (JsonVal × List Char) :=
  let signed : Bool × List Char :=
    match l with
    | '-' :: r => (true, r)
    | _ => (false, l)
  match signed.2 with
  | [] => none
  | c :: crest =>
    if c.isDigit = false then none
    else if c = '0' ∧ (crest.headD 'x').isDigit then none
    else
      let ds := (c :: crest).takeWhile Char.isDigit
      let r1 := (c :: crest).dropWhile Char.isDigit
      match parseFrac (natFromDigits ds : ℤ) r1 with
      | none => none
      | some (m, e0, r2) =>
        match parseExp r2 with
        | none => none
        | some (eAdd, r3) =>
          some (JsonVal.num (if signed.1 then -m else m) (e0 + eAdd), r3)

mutual

/-- One JSON value (with leading whitespace). -/
def parseValue : ℕ → List Char → Option (JsonVal × List Char)
  | 0, _ => none
  | fuel + 1, l =>
    match skipWs l with
    | [] => none
    | c :: rest =>
      if c = 'n' then
        match matchTok "ull".toList rest with
        | some r => some (JsonVal.null, r)
        | none => none
      else if c = 't' then
        match matchTok "rue".toList rest with
        | some r => some (JsonVal.bool true, r)
        | none => none
      else if c = 'f' then
        match matchTok "alse".toList rest with
        | some r => some (JsonVal.bool false, r)
        | none => none
      else if c = '"' then
        match parseStringBody (rest.length + 1) rest with
        | some (sres, r) => some (JsonVal.str sres, r)
        | none => none
      else if c = '[' then parseElems fuel rest
      else if c = '\x7b' then parseMembersStart fuel rest
      else parseNumber (c :: rest)

/-- Array contents immediately after `[`. -/
def parseElems : ℕ → List Char → Option (JsonVal × List Char)
  | 0, _ => none
  | fuel + 1, l =>
    match skipWs l with
    | ']' :: r => some (JsonVal.arr [], r)
    | _ =>
      match parseValue fuel l with
      | some (v, r) =>
        match parseElemsRest fuel r with
        | some (vs, r2) => some (JsonVal.arr (v :: vs), r2)
        | none => none
      | none => none

/-- `, value`* `]` after the first array element. -/
def parseElemsRest : ℕ → List Char → Option (List JsonVal × List Char)
  | 0, _ => none
  | fuel + 1, l =>
    match skipWs l with
    | ']' :: r => some ([], r)
    | ',' :: r =>
      match parseValue fuel r with
      | some (v, r2) =>
        match parseElemsRest fuel r2 with
        | some (vs, r3) => some (v :: vs, r3)
        | none => none
      | none => none
    | _ => none

/-- Object contents immediately after the opening brace. -/
def parseMembersStart : ℕ → List Char → Option (JsonVal × List Char)
  | 0, _ => none
  | fuel + 1, l =>
    match skipWs l with
    | '\x7d' :: r => some (JsonVal.obj [], r)
    | _ =>
      match parseMember fuel l with
      | some (kv, r) =>
        match parseMembersRest fuel r with
        | some (kvs, r2) => some (JsonVal.obj (kv :: kvs), r2)
        | none => none
      | none => none

/-- One `"key": value` member. -/
def parseMember : ℕ → List Char → Option ((List Char × JsonVal) × List Char)
  | 0, _ => none
  | fuel + 1, l =>
    match skipWs l with
    | '"' :: r =>
      match parseStringBody (r.length + 1) r with
      | some (k, r2) =>
        match skipWs r2 with
        | ':' :: r3 =>
          match parseValue fuel r3 with
          | some (v, r4) => some ((k, v), r4)
          | none => none
        | _ => none
      | none => none
    | _ => none

/-- `, member`* and the closing brace after the first member. -/
def parseMembersRest : ℕ → List Char → Option (List (List Char × JsonVal) × List Char)
  | 0, _ => none
  | fuel + 1, l =>
    match skipWs l with
    | '\x7d' :: r => some ([], r)
    | ',' :: r =>
      match parseMember fuel r with
      | some (kv, r2) =>
        match parseMembersRest fuel r2 with
        | some (kvs, r3) => some (kv :: kvs, r3)
        | none => none
      | none => none
    | _ => none

end

/-- `JSON.parse`: a full value, tolerating surrounding whitespace. -/
def jsonParse (l : List Char) : Option JsonVal :=
  match parseValue (2 * l.length + 2) l with
  | some (v, rest) => if skipWs rest = [] then some v else none
  | none => none

/-- `raw.replace(/^\uFEFF/, '')`. -/
def stripLeadingFeff : List Char → List Char
  | [] => []
  | c :: rest => if c = '\ufeff' then rest else c :: rest

/-- `raw.replace(/,\s*([}\]])/g, '$1')` as a single left-to-right pass;
    the state holds a pending comma-plus-whitespace run that is dropped
    when a closing bracket or brace follows. -/
def rtcAux : Option (List Char) → List Char → List Char
  | none, [] => []
  | some buf, [] => buf
  | none, c :: rest =>
    if c = ',' then rtcAux (some [',']) rest
    else c :: rtcAux none rest
  | some buf, c :: rest =>
    if c = '\x7d' ∨ c = ']' then c :: rtcAux none rest
    else if isJsSpace c then rtcAux (some (buf ++ [c])) rest
    else if c = ',' then buf ++ rtcAux (some [',']) rest
    else buf ++ (c :: rtcAux none rest)

def removeTrailingCommas (l : List Char) : List Char := rtcAux none l

/-- The trim-and-wrap preprocessing of `parseEventsJson`. -/
def prepRaw (file : List Char) : List Char :=
  let raw := jsTrim file
  match raw.head? with
  | some c =>
    if c = '[' then raw
    else if c = '\x7b' then '[' :: raw ++ [']']
    else raw
  | none => raw

/-- The final root check: `if (!Array.isArray(data)) throw`. -/
def jsonRootArray (d : JsonVal) : Except (List Char) (List JsonVal) :=
  match d with
  | JsonVal.arr vs => Except.ok vs
  | _ => Except.error "events.json root is not an array after parsing.".toList

/-- `parseEventsJson` (identical in `check_events.js` and the fix
    script): trim, wrap a single object, parse, on failure repair
    trailing commas and a leading BOM and re-parse; a second failure or
    a non-array root is fatal. -/
def parseEventsJson (file : List Char) : Except (List Char) (List JsonVal) :=
  let raw := prepRaw file
  match jsonParse raw with
  | some d => jsonRootArray d
  | none =>
    match jsonParse (stripLeadingFeff (removeTrailingCommas raw)) with
    | some d => jsonRootArray d
    | none => Except.error "Failed to parse events.json".toList

/-! ## Theorems -/

theorem levSpec_nil_left (t : List Char) : levSpec [] t = t.length := by
  cases t <;> simp [levSpec]

theorem levSpec_nil_right (s : List Char) : levSpec s [] = s.length := by
  cases s <;> simp [levSpec]

theorem levSpec_cons_cons (x y : Char) (xs ys : List Char) :
    levSpec (x :: xs) (y :: ys) =
      if x = y then levSpec xs ys
      else 1 + min (levSpec xs ys) (min (levSpec (x :: xs) ys) (levSpec xs (y :: ys))) := by
  simp [levSpec]

theorem levRowSpec_head (O R : List Char) (xs : List Char) :
    (levRowSpec O R xs).headD 0 = levSpec R O := by
  cases xs <;> simp [levRowSpec]

theorem levRowSpec_ne_nil (O R : List Char) (xs : List Char) :
    levRowSpec O R xs ≠ [] := by
  cases xs <;> simp [levRowSpec]

theorem levBuildRow_spec (yc : Char) (O : List Char) :
    ∀ (xs R : List Char),
      levBuildRow yc xs (levRowSpec O R xs) (levSpec R (yc :: O)) =
        (levRowSpec (yc :: O) R xs).tail := by
  intro xs
  induction xs with
  | nil => intro R; simp [levBuildRow, levRowSpec]
  | cons x xs ih =>
    intro R
    have hcur :
        (if yc = x then levSpec R O
         else min (levSpec R O + 1)
            (min (levSpec R (yc :: O) + 1) ((levRowSpec O (x :: R) xs).headD 0 + 1))) =
        levSpec (x :: R) (yc :: O) := by
      rw [levRowSpec_head, levSpec_cons_cons]
      by_cases h : x = yc
      · subst h; simp
      · rw [if_neg h, if_neg (fun hh => h hh.symm)]
        omega
    calc levBuildRow yc (x :: xs) (levRowSpec O R (x :: xs)) (levSpec R (yc :: O))
        = levSpec (x :: R) (yc :: O) ::
            levBuildRow yc xs (levRowSpec O (x :: R) xs) (levSpec (x :: R) (yc :: O)) := by
          simp only [levRowSpec, levBuildRow, hcur]
      _ = levSpec (x :: R) (yc :: O) :: (levRowSpec (yc :: O) (x :: R) xs).tail := by
          rw [ih]
      _ = (levRowSpec (yc :: O) R (x :: xs)).tail := by
          cases xs <;> simp [levRowSpec]

theorem levGo_spec (s1 : List Char) :
    ∀ (ys O : List Char),
      levGo s1 ys (O.length + 1) (levRowSpec O [] s1) =
        levRowSpec (ys.reverse ++ O) [] s1 := by
  intro ys
  induction ys with
  | nil => intro O; simp [levGo]
  | cons yc ys ih =>
    intro O
    have hrow : (O.length + 1 : ℕ) :: levBuildRow yc s1 (levRowSpec O [] s1) (O.length + 1) =
        levRowSpec (yc :: O) [] s1 := by
      have h1 : (O.length + 1 : ℕ) = levSpec [] (yc :: O) := by
        rw [levSpec_nil_left]; simp
      rw [h1, levBuildRow_spec]
      cases s1 <;> simp [levRowSpec, levSpec_nil_left]
    have := ih (yc :: O)
    simp only [List.length_cons] at this
    calc levGo s1 (yc :: ys) (O.length + 1) (levRowSpec O [] s1)
        = levGo s1 ys (O.length + 1 + 1) ((O.length + 1) :: levBuildRow yc s1 (levRowSpec O [] s1) (O.length + 1)) := by
          simp [levGo]
      _ = levRowSpec (ys.reverse ++ (yc :: O)) [] s1 := by rw [hrow]; exact this
      _ = levRowSpec ((yc :: ys).reverse ++ O) [] s1 := by
          simp [List.append_assoc]

theorem levRowSpec_nil_O (xs : List Char) :
    ∀ R, levRowSpec [] R xs = List.range' R.length (xs.length + 1) := by
  induction xs with
  | nil => intro R; simp [levRowSpec, levSpec_nil_right, List.range']
  | cons x xs ih =>
    intro R
    rw [levRowSpec, levSpec_nil_right, ih]
    simp [List.range'_succ]

theorem getLastD_cons_of_ne_nil {α} (a d : α) (l : List α) (h : l ≠ []) :
    (a :: l).getLastD d = l.getLastD d := by
  cases l with
  | nil => exact absurd rfl h
  | cons b bs => simp [List.getLastD]

theorem levRowSpec_getLastD (O : List Char) :
    ∀ (xs R : List Char), (levRowSpec O R xs).getLastD 0 = levSpec (xs.reverse ++ R) O := by
  intro xs
  induction xs with
  | nil => intro R; simp [levRowSpec]
  | cons x xs ih =>
    intro R
    rw [levRowSpec]
    rw [getLastD_cons_of_ne_nil _ _ _ (levRowSpec_ne_nil O (x :: R) xs), ih]
    simp

theorem levenshteinDistance_eq_levSpec_rev (s1 s2 : List Char) :
    levenshteinDistance s1 s2 = levSpec s1.reverse s2.reverse := by
  unfold levenshteinDistance
  have h0 : List.range (s1.length + 1) = levRowSpec [] [] s1 := by
    rw [levRowSpec_nil_O]; simp [List.range_eq_range']
  rw [h0]
  have h1 := levGo_spec s1 s2 []
  simp only [List.length_nil, List.append_nil] at h1
  rw [h1, levRowSpec_getLastD]
  simp

theorem min_one_add (a b : ℕ) : min (1 + a) (1 + b) = 1 + min a b := by omega

theorem min_shuffle9 (D P Q E P2 Q2 F P3 Q3 : ℕ) :
    1 + min (1 + min D (min P Q)) (min (1 + min E (min P2 Q2)) (1 + min F (min P3 Q3))) =
    1 + min (1 + min D (min E F)) (min (1 + min P (min P2 P3)) (1 + min Q (min Q2 Q3))) := by
  rw [min_one_add, min_one_add, min_one_add, min_one_add]
  congr 2
  apply le_antisymm <;> simp only [le_min_iff, min_le_iff] <;> tauto

/-- `levSpec [x] (t ++ [y])` satisfies the last-character recurrence. -/
theorem levSpec_single_left (x y : Char) :
    ∀ t : List Char, levSpec [x] (t ++ [y]) =
      if x = y then t.length
      else 1 + min t.length (min (levSpec [x] t) (t.length + 1)) := by
  intro t
  induction t with
  | nil =>
    simp only [List.nil_append, levSpec_cons_cons, levSpec_nil_left, levSpec_nil_right,
      List.length_nil, List.length_cons]
    all_goals (split_ifs <;> omega)
  | cons b t' ih =>
    simp only [List.cons_append]
    rw [levSpec_cons_cons x b, ih]
    rw [levSpec_cons_cons x b]
    simp only [levSpec_nil_left, levSpec_nil_right, List.length_append, List.length_cons,
      List.length_nil]
    all_goals (split_ifs <;> omega)

/-- `levSpec (s ++ [x]) [y]` satisfies the last-character recurrence. -/
theorem levSpec_single_right (x y : Char) :
    ∀ s : List Char, levSpec (s ++ [x]) [y] =
      if x = y then s.length
      else 1 + min s.length (min (s.length + 1) (levSpec s [y])) := by
  intro s
  induction s with
  | nil =>
    simp only [List.nil_append, levSpec_cons_cons, levSpec_nil_left, levSpec_nil_right,
      List.length_nil, List.length_cons]
    all_goals (split_ifs <;> omega)
  | cons a s' ih =>
    simp only [List.cons_append]
    rw [levSpec_cons_cons a y, ih]
    rw [levSpec_cons_cons a y]
    simp only [levSpec_nil_left, levSpec_nil_right, List.length_append, List.length_cons,
      List.length_nil]
    all_goals (split_ifs <;> omega)

/-- Peeling a final character off both arguments of `levSpec` obeys the
    same recurrence as peeling the leading characters. -/
theorem levSpec_append (x y : Char) :
    ∀ (n : ℕ) (s t : List Char), s.length + t.length ≤ n →
    levSpec (s ++ [x]) (t ++ [y]) =
      if x = y then levSpec s t
      else 1 + min (levSpec s t) (min (levSpec (s ++ [x]) t) (levSpec s (t ++ [y]))) := by
  intro n
  induction n with
  | zero =>
    intro s t h
    have hs : s = [] := by cases s <;> simp_all
    have ht : t = [] := by cases t <;> simp_all
    subst hs; subst ht
    rw [List.nil_append, levSpec_single_left x y []]
    simp only [List.nil_append, levSpec_nil_left, levSpec_nil_right, List.length_nil,
      List.length_cons]
    all_goals (split_ifs <;> omega)
  | succ n ih =>
    intro s t h
    match s, t with
    | [], t =>
      rw [List.nil_append, levSpec_single_left x y t]
      simp only [List.nil_append, levSpec_nil_left, List.length_append, List.length_cons,
        List.length_nil]
      all_goals (split_ifs <;> omega)
    | a :: s', [] =>
      rw [List.nil_append, levSpec_single_right x y (a :: s')]
      simp only [List.nil_append, levSpec_nil_right, List.length_append, List.length_cons,
        List.length_nil]
      all_goals (split_ifs <;> omega)
    | a :: s', b :: t' =>
      have hlen : s'.length + t'.length + 2 ≤ n + 1 := by
        simp only [List.length_cons] at h; omega
      have ih1 := ih s' t' (by omega)
      have ih2 := ih (a :: s') t' (by simp only [List.length_cons]; omega)
      have ih3 := ih s' (b :: t') (by simp only [List.length_cons]; omega)
      simp only [List.cons_append] at ih1 ih2 ih3 ⊢
      rw [levSpec_cons_cons a b (s' ++ [x]) (t' ++ [y]),
        levSpec_cons_cons a b s' t',
        levSpec_cons_cons a b (s' ++ [x]) t',
        levSpec_cons_cons a b s' (t' ++ [y]),
        ih1, ih2, ih3]
      split_ifs <;>
        first
          | rfl
          | exact min_shuffle9 _ _ _ _ _ _ _ _ _
          | omega

/-- Edit distance is invariant under reversing both strings. -/
theorem levSpec_rev : ∀ (n : ℕ) (s t : List Char), s.length + t.length ≤ n →
    levSpec s.reverse t.reverse = levSpec s t := by
  intro n
  induction n with
  | zero =>
    intro s t h
    have hs : s = [] := by cases s <;> simp_all
    have ht : t = [] := by cases t <;> simp_all
    subst hs; subst ht; rfl
  | succ n ih =>
    intro s t h
    match s, t with
    | [], t => simp [levSpec_nil_left]
    | a :: s', [] => simp [levSpec_nil_right]
    | a :: s', b :: t' =>
      have h1 : s'.length + t'.length + 1 ≤ n := by
        simp only [List.length_cons] at h; omega
      rw [List.reverse_cons, List.reverse_cons,
        levSpec_append a b (s'.reverse.length + t'.reverse.length) _ _ (by simp)]
      simp only [← List.reverse_cons]
      rw [ih s' t' (by omega),
        ih (a :: s') t' (by simp only [List.length_cons]; omega),
        ih s' (b :: t') (by simp only [List.length_cons]; omega),
        levSpec_cons_cons]

/-- The source's dynamic program computes the classic Levenshtein
    distance. -/
theorem levenshteinDistance_eq (s1 s2 : List Char) :
    levenshteinDistance s1 s2 = levSpec s1 s2 := by
  rw [levenshteinDistance_eq_levSpec_rev,
    levSpec_rev (s1.length + s2.length) s1 s2 (le_refl _)]

theorem levSpec_self (s : List Char) : levSpec s s = 0 := by
  induction s with
  | nil => rw [levSpec_nil_left]; rfl
  | cons x xs ih => simp [levSpec_cons_cons, ih]

theorem levSpec_eq_zero {s t : List Char} (h : levSpec s t = 0) : s = t := by
  induction s generalizing t with
  | nil =>
    rw [levSpec_nil_left] at h
    exact (List.eq_nil_of_length_eq_zero h).symm
  | cons x xs ih =>
    cases t with
    | nil => rw [levSpec_nil_right] at h; simp at h
    | cons y ys =>
      rw [levSpec_cons_cons] at h
      by_cases hxy : x = y
      · rw [if_pos hxy] at h
        rw [hxy, ih h]
      · rw [if_neg hxy] at h; omega

theorem levSpec_le_max : ∀ (s t : List Char), levSpec s t ≤ max s.length t.length := by
  intro s
  induction s with
  | nil => intro t; simp [levSpec_nil_left]
  | cons x xs ih =>
    intro t
    cases t with
    | nil => simp [levSpec_nil_right]
    | cons y ys =>
      rw [levSpec_cons_cons]
      have h1 := ih ys
      by_cases hxy : x = y
      · rw [if_pos hxy]
        simp only [List.length_cons]
        omega
      · rw [if_neg hxy]
        simp only [List.length_cons]
        have h2 : min (levSpec xs ys) (min (levSpec (x :: xs) ys) (levSpec xs (y :: ys))) ≤
            levSpec xs ys := min_le_left _ _
        omega

theorem levSpec_comm : ∀ (n : ℕ) (s t : List Char), s.length + t.length ≤ n →
    levSpec s t = levSpec t s := by
  intro n
  induction n with
  | zero =>
    intro s t h
    have hs : s = [] := by cases s <;> simp_all
    have ht : t = [] := by cases t <;> simp_all
    subst hs; subst ht; rfl
  | succ n ih =>
    intro s t h
    match s, t with
    | [], t => rw [levSpec_nil_left, levSpec_nil_right]
    | a :: s', [] => rw [levSpec_nil_left, levSpec_nil_right]
    | a :: s', b :: t' =>
      have h1 : s'.length + t'.length + 1 ≤ n := by
        simp only [List.length_cons] at h; omega
      rw [levSpec_cons_cons, levSpec_cons_cons,
        ih s' t' (by omega),
        ih (a :: s') t' (by simp only [List.length_cons]; omega),
        ih s' (b :: t') (by simp only [List.length_cons]; omega)]
      by_cases hab : a = b
      · rw [if_pos hab, if_pos hab.symm]
      · rw [if_neg hab, if_neg (fun hh => hab hh.symm)]
        omega

/-! ## Similarity scorer: helper lemmas -/

theorem levenshteinDistance_comm (a b : List Char) :
    levenshteinDistance a b = levenshteinDistance b a := by
  rw [levenshteinDistance_eq, levenshteinDistance_eq,
    levSpec_comm (a.length + b.length) a b (le_refl _)]

theorem levenshteinDistance_self (a : List Char) : levenshteinDistance a a = 0 := by
  rw [levenshteinDistance_eq, levSpec_self]

theorem levenshteinDistance_eq_zero {a b : List Char}
    (h : levenshteinDistance a b = 0) : a = b := by
  rw [levenshteinDistance_eq] at h
  exact levSpec_eq_zero h

theorem levenshteinDistance_le_max (a b : List Char) :
    levenshteinDistance a b ≤ max a.length b.length := by
  rw [levenshteinDistance_eq]
  exact levSpec_le_max a b

/-- `calculateSimilarity` in closed form:
    `(maxLen − editDistance) / maxLen` over the rationals. -/
theorem calculateSimilarity_formula (a b : List Char) :
    calculateSimilarity a b =
      (((max a.length b.length : ℕ) : ℚ) - (levenshteinDistance a b : ℚ)) /
        ((max a.length b.length : ℕ) : ℚ) := by
  by_cases h : a = [] ∨ b = []
  · rw [calculateSimilarity, if_pos h]
    rcases h with h | h
    · subst h
      rw [levenshteinDistance_eq, levSpec_nil_left]
      simp
    · subst h
      rw [levenshteinDistance_eq, levSpec_nil_right]
      simp
  · rw [calculateSimilarity, if_neg h]
    push_neg at h
    obtain ⟨ha, hb⟩ := h
    by_cases hgt : a.length > b.length
    · simp only [if_pos hgt]
      rw [if_neg (by simpa using ha)]
      rw [Nat.max_eq_left (le_of_lt hgt)]
    · simp only [if_neg hgt]
      rw [if_neg (by simpa using hb)]
      rw [Nat.max_eq_right (not_lt.mp hgt), levenshteinDistance_comm b a]

/-! ## Claim C2 -/

/-- C2 counterexample: the claim says `calculateSimilarity` returns 1.0
    when both inputs are empty and a value strictly between 0 and 1 for
    every pair of distinct non-empty strings.  In the code the falsy
    guard `if (!str1 || !str2) return 0` fires first, so
    `calculateSimilarity("", "")` is `0`, not `1`; and
    `calculateSimilarity("a", "b") = (1 − 1)/1 = 0` is not strictly
    between 0 and 1. -/
theorem C2_counterexample :
    calculateSimilarity [] [] = 0 ∧ (0 : ℚ) ≠ 1 ∧
    calculateSimilarity ['a'] ['b'] = 0 ∧ ['a'] ≠ ['b'] := by
  refine ⟨rfl, by norm_num, ?_, by decide⟩
  have hd : levenshteinDistance ['a'] ['b'] = 1 := by decide
  rw [calculateSimilarity_formula, hd]
  norm_num

/-- C2 (amended): `calculateSimilarity` returns 0 whenever either input
    is empty (including both empty); returns 1.0 for identical
    non-empty inputs; and for distinct non-empty inputs returns a value
    in `[0, 1)` (0 is attained, e.g. by `"a"`/`"b"`). -/
theorem C2_amended (s1 s2 : List Char) :
    ((s1 = [] ∨ s2 = []) → calculateSimilarity s1 s2 = 0) ∧
    (s1 ≠ [] → s1 = s2 → calculateSimilarity s1 s2 = 1) ∧
    (s1 ≠ [] → s2 ≠ [] → s1 ≠ s2 →
      0 ≤ calculateSimilarity s1 s2 ∧ calculateSimilarity s1 s2 < 1) := by
  refine ⟨fun h => by rw [calculateSimilarity, if_pos h], ?_, ?_⟩
  · intro h1 h12
    subst h12
    rw [calculateSimilarity_formula, levenshteinDistance_self, Nat.max_self]
    have hn : (0 : ℚ) < (s1.length : ℚ) := by
      exact_mod_cast List.length_pos.mpr h1
    rw [Nat.cast_zero, sub_zero, div_self (ne_of_gt hn)]
  · intro h1 h2 hne
    rw [calculateSimilarity_formula]
    have hd1 : 1 ≤ levenshteinDistance s1 s2 := by
      rcases Nat.eq_zero_or_pos (levenshteinDistance s1 s2) with h | h
      · exact absurd (levenshteinDistance_eq_zero h) hne
      · exact h
    have hdm := levenshteinDistance_le_max s1 s2
    have hm : 0 < max s1.length s2.length := by
      have := List.length_pos.mpr h1
      omega
    constructor
    · apply div_nonneg
      · have hc : (levenshteinDistance s1 s2 : ℚ) ≤ ((max s1.length s2.length : ℕ) : ℚ) := by
          exact_mod_cast hdm
        linarith
      · exact Nat.cast_nonneg _
    · rw [div_lt_one (by exact_mod_cast hm)]
      have hc : (1 : ℚ) ≤ (levenshteinDistance s1 s2 : ℚ) := by exact_mod_cast hd1
      linarith

/-- C2 witness: a concrete distinct non-empty pair (discharging the
    hypotheses of `C2_amended`). -/
theorem C2_witness :
    0 ≤ calculateSimilarity ['a', 'b'] ['a', 'c'] ∧
    calculateSimilarity ['a', 'b'] ['a', 'c'] < 1 :=
  (C2_amended ['a', 'b'] ['a', 'c']).2.2 (by decide) (by decide) (by decide)

/-! ## Claim C3 -/

/-- C3: for every pair of strings, `calculateSimilarity` equals
    `(maxLen − d) / maxLen` where `maxLen` is the length of the longer
    string and `d` is the classic Levenshtein distance as computed by
    `levenshteinDistance` (proved equal to the textbook recursive
    definition `levSpec`); in particular
    `calculateSimilarity("kitten", "sitting") = 4/7`. -/
theorem C3_similarity_is_normalized_levenshtein :
    (∀ a b : List Char,
      levenshteinDistance a b = levSpec a b ∧
      calculateSimilarity a b =
        (((max a.length b.length : ℕ) : ℚ) - (levenshteinDistance a b : ℚ)) /
          ((max a.length b.length : ℕ) : ℚ)) ∧
    calculateSimilarity "kitten".toList "sitting".toList = 4 / 7 := by
  refine ⟨fun a b => ⟨levenshteinDistance_eq a b, calculateSimilarity_formula a b⟩, ?_⟩
  have hd : levenshteinDistance "kitten".toList "sitting".toList = 3 := by decide
  have hl : max "kitten".toList.length "sitting".toList.length = 7 := by decide
  rw [calculateSimilarity_formula, hd, hl]
  norm_num

/-! ## Stage-identity lemmas for the normalizers -/

theorem map_jsToLower_id {y : List Char} (h : ∀ c ∈ y, jsToLower c = c) :
    y.map jsToLower = y := by
  induction y with
  | nil => rfl
  | cons c rest ih =>
    simp only [List.map_cons]
    rw [h c (by simp), ih (fun d hd => h d (by simp [hd]))]

theorem filter_no_pipe {y : List Char} (h : ∀ c ∈ y, ¬ c = '|') :
    y.filter (fun c => ¬ c = '|') = y := by
  induction y with
  | nil => rfl
  | cons c rest ih =>
    rw [List.filter_cons]
    rw [if_pos (by simpa using h c (by simp)), ih (fun d hd => h d (by simp [hd]))]

theorem collapseWsAux_id :
    ∀ (y : List Char), (∀ c ∈ y, isJsSpace c = true → c = ' ') →
      noDoubleSpace y = true →
      ∀ b : Bool, (b = true → ¬ y.headD 'x' = ' ') → collapseWsAux b y = y := by
  intro y
  induction y with
  | nil => intro _ _ b _; cases b <;> rfl
  | cons c rest ih =>
    intro hws hnd b hb
    by_cases hsp : isJsSpace c = true
    · have hc : c = ' ' := hws c (by simp) hsp
      cases b with
      | true => exact absurd (by simpa using hc) (hb rfl)
      | false =>
        rw [collapseWsAux, if_pos hsp]
        have hrest : collapseWsAux true rest = rest := by
          apply ih (fun d hd hws' => hws d (by simp [hd]) hws') ?_ true ?_
          · cases rest with
            | nil => rfl
            | cons d rest' =>
              have := hnd
              simp only [noDoubleSpace, Bool.and_eq_true] at this
              exact this.2
          · intro _
            cases rest with
            | nil => simp
            | cons d rest' =>
              have := hnd
              simp only [noDoubleSpace, Bool.and_eq_true, Bool.not_eq_true',
                Bool.and_eq_false_iff, beq_eq_false_iff_ne, ne_eq] at this
              rcases this.1 with h1 | h1
              · exact absurd hc h1
              · simpa using h1
        rw [hrest]
        simp [hc]
    · rw [collapseWsAux, if_neg hsp]
      rw [ih (fun d hd hws' => hws d (by simp [hd]) hws') ?_ false (by simp)]
      cases rest with
      | nil => rfl
      | cons d rest' =>
        have := hnd
        simp only [noDoubleSpace, Bool.and_eq_true] at this
        exact this.2

theorem stripTokCI_suffix :
    ∀ (tok l r : List Char), stripTokCI tok l = some r → r <:+ l := by
  intro tok
  induction tok with
  | nil =>
    intro l r h
    simp only [stripTokCI] at h
    cases h
    exact List.suffix_refl _
  | cons p ps ih =>
    intro l r h
    cases l with
    | nil => simp [stripTokCI] at h
    | cons c cs =>
      simp only [stripTokCI] at h
      by_cases hc : jsToLower c = p
      · rw [if_pos hc] at h
        exact (ih cs r h).trans (List.suffix_cons c cs)
      · rw [if_neg hc] at h
        cases h

theorem stripDistSuffix_id {suf y : List Char}
    (h : ∀ c ∈ y, c.isDigit = false) : stripDistSuffix suf y = y := by
  rw [stripDistSuffix]
  cases hm : stripTokCI suf.reverse y.reverse with
  | none => rfl
  | some rest =>
    cases rest with
    | nil => rfl
    | cons d rest' =>
      have hd : d ∈ y.reverse := (stripTokCI_suffix _ _ _ hm).subset (by simp)
      have hdd : d.isDigit = false := h d (List.mem_reverse.mp hd)
      simp [hdd]

theorem stripTokNum_id {tok : List Char} :
    ∀ {y : List Char}, (∀ c ∈ y, c.isDigit = false) → stripTokNum tok y = y := by
  intro y
  induction y with
  | nil => intro _; rfl
  | cons c rest ih =>
    intro h
    rw [stripTokNum]
    cases hm : stripTokCI tok (c :: rest) with
    | none => simp [ih (fun d hd => h d (by simp [hd]))]
    | some after =>
      have hsub : after <:+ c :: rest := stripTokCI_suffix _ _ _ hm
      cases hw : after.dropWhile isJsSpace with
      | nil => simp [hw, ih (fun d hd => h d (by simp [hd]))]
      | cons d ds =>
        have hd : d ∈ after := by
          have hmem : d ∈ after.dropWhile isJsSpace := by rw [hw]; simp
          exact (List.dropWhile_sublist _).subset hmem
        have hdd : d.isDigit = false := h d (hsub.subset hd)
        simp [hw, hdd, ih (fun e he => h e (by simp [he]))]

theorem replaceYears_id :
    ∀ {y : List Char}, (∀ c ∈ y, c.isDigit = false) → replaceYears y = y := by
  intro y
  induction y using replaceYears.induct with
  | case1 a b c d rest hdig ih =>
    intro h
    exact absurd (h a (by simp)) (by simp [hdig.1])
  | case2 a b c d rest hdig ih =>
    intro h
    rw [replaceYears, if_neg hdig, ih (fun e he => h e (by simp [he]))]
  | case3 l hl =>
    intro _
    cases l with
    | nil => rfl
    | cons a l1 =>
      cases l1 with
      | nil => rfl
      | cons b l2 =>
        cases l2 with
        | nil => rfl
        | cons c l3 =>
          cases l3 with
          | nil => rfl
          | cons d rest => exact absurd rfl (hl a b c d rest)

theorem stripFromTok_id {tok : List Char} :
    ∀ {y : List Char}, hasTokCI tok y = false → stripFromTok tok y = y := by
  intro y
  induction y with
  | nil => intro _; rfl
  | cons c rest ih =>
    intro h
    simp only [hasTokCI, Bool.or_eq_false_iff] at h
    rw [stripFromTok]
    cases hm : stripTokCI tok (c :: rest) with
    | none => simp [ih h.2]
    | some after => rw [hm] at h; simp at h

theorem jsTrim_id {y : List Char}
    (hws : ∀ c ∈ y, isJsSpace c = true → c = ' ')
    (hh : ¬ y.headD 'x' = ' ') (hl : ¬ y.getLastD 'x' = ' ') :
    jsTrim y = y := by
  rw [jsTrim]
  have h1 : y.dropWhile isJsSpace = y := by
    cases y with
    | nil => rfl
    | cons c rest =>
      rw [List.dropWhile_cons, if_neg]
      intro hsp
      exact hh (by simpa using hws c (by simp) hsp)
  rw [h1]
  have h2 : y.reverse.dropWhile isJsSpace = y.reverse := by
    cases hrev : y.reverse with
    | nil => rfl
    | cons c rest =>
      rw [List.dropWhile_cons, if_neg]
      intro hsp
      have hcy : c ∈ y := by
        rw [← List.mem_reverse, hrev]; simp
      have hc : c = ' ' := hws c hcy hsp
      have : y.getLastD 'x' = c := by
        rw [List.getLastD_eq_getLast?, ← List.head?_reverse, hrev]
        rfl
      exact hl (this ▸ hc)
  rw [h2, List.reverse_reverse]

/-- On `normStable` strings the whole fix-script normalizer is the
    identity. -/
theorem normalizeEventName_fixed {y : List Char} (h : normStable y = true) :
    normalizeEventName y = y := by
  by_cases hy : y = []
  · subst hy; rfl
  · simp only [normStable, Bool.and_eq_true, Bool.not_eq_true', beq_eq_false_iff_ne,
      ne_eq, Bool.not_eq_true] at h
    obtain ⟨⟨⟨⟨⟨hall, hnd⟩, hhead⟩, hlast⟩, hpow⟩, hspon⟩ := h
    have hall' : ∀ c ∈ y, normStableChar c = true := List.all_eq_true.mp hall
    have hlower : ∀ c ∈ y, jsToLower c = c := by
      intro c hc
      have := hall' c hc
      simp only [normStableChar, decide_eq_true_eq] at this
      exact this.1
    have hpipe : ∀ c ∈ y, ¬ c = '|' := by
      intro c hc
      have := hall' c hc
      simp only [normStableChar, decide_eq_true_eq] at this
      exact this.2.1
    have hwso : ∀ c ∈ y, isJsSpace c = true → c = ' ' := by
      intro c hc
      have := hall' c hc
      simp only [normStableChar, decide_eq_true_eq] at this
      exact this.2.2.1
    have hdig : ∀ c ∈ y, c.isDigit = false := by
      intro c hc
      have := hall' c hc
      simp only [normStableChar, decide_eq_true_eq] at this
      exact this.2.2.2
    rw [normalizeEventName, if_neg hy, map_jsToLower_id hlower, filter_no_pipe hpipe]
    rw [collapseWs, collapseWsAux_id y hwso hnd false (by simp)]
    rw [stripDistSuffix_id hdig, stripDistSuffix_id hdig, stripTokNum_id hdig,
      stripTokNum_id hdig, replaceYears_id hdig, stripFromTok_id hpow,
      stripFromTok_id hspon, jsTrim_id hwso hhead hlast]

/-! ## Claim C1 -/

/-- C1 counterexample: `normalizeEventName` is not idempotent.  On
    `"5k edition 2"` the first application strips `"edition 2"` and
    trims, leaving `"5k"`; the second application then strips the now
    exposed trailing distance token, leaving `""`. -/
theorem C1_counterexample :
    normalizeEventName (normalizeEventName "5k edition 2".toList) ≠
      normalizeEventName "5k edition 2".toList := by decide

/-- C1 (amended): `normalizeEventName` is idempotent on every input
    whose normalized form is stable — contains only lower-case
    non-pipe non-digit characters with all whitespace a single plain
    space, is trimmed, and has no "powered by"/"sponsored by"
    occurrence.  (It is not idempotent in general: stripping an
    `edition`/`season` token can expose a trailing distance token or
    leave a double space, and the year sentinel leaves digits for the
    distance rules of a second pass.) -/
theorem C1_amended (x : List Char)
    (h : normStable (normalizeEventName x) = true) :
    normalizeEventName (normalizeEventName x) = normalizeEventName x :=
  normalizeEventName_fixed h

/-- C1 witness: a concrete input whose normal form is stable. -/
theorem C1_witness :
    normalizeEventName (normalizeEventName "Hello  World".toList) =
      normalizeEventName "Hello  World".toList :=
  C1_amended "Hello  World".toList (by decide)

/-! ## Claim C10: the two normalizers -/

theorem char_isDigit_iff (c : Char) :
    (c.isDigit = true) ↔ (48 ≤ c.toNat ∧ c.toNat ≤ 57) := by
  simp [Char.isDigit, UInt32.le_def, BitVec.le_def, Char.toNat, UInt32.toNat]

theorem jsToLower_isDigit_false {c : Char} (h : c.isDigit = false) :
    (jsToLower c).isDigit = false := by
  rw [jsToLower]
  by_cases hc : 'A' ≤ c ∧ c ≤ 'Z'
  · rw [if_pos hc]
    obtain ⟨h1, h2⟩ := hc
    have e1 : 65 ≤ c.toNat := h1
    have e2 : c.toNat ≤ 90 := h2
    have hv : (c.toNat + 32).isValidChar := Or.inl (by omega)
    have ht : (Char.ofNat (c.toNat + 32)).toNat = c.toNat + 32 := by
      rw [Char.ofNat, dif_pos hv]
      rfl
    rw [← Bool.not_eq_true]
    intro hd
    have hrange := (char_isDigit_iff _).mp hd
    rw [ht] at hrange
    omega
  · rw [if_neg hc]; exact h

theorem collapseWsAux_mem :
    ∀ (y : List Char) (b : Bool) (c : Char), c ∈ collapseWsAux b y → c = ' ' ∨ c ∈ y := by
  intro y
  induction y with
  | nil => intro b c h; cases b <;> simp [collapseWsAux] at h
  | cons d rest ih =>
    intro b c h
    rw [collapseWsAux] at h
    by_cases hd : isJsSpace d = true
    · rw [if_pos hd] at h
      cases b with
      | true =>
        simp only [if_pos rfl] at h
        rcases ih true c h with h1 | h1
        · exact Or.inl h1
        · exact Or.inr (by simp [h1])
      | false =>
        simp only [Bool.false_eq_true, if_neg] at h
        rcases List.mem_cons.mp h with h1 | h1
        · exact Or.inl h1
        · rcases ih true c h1 with h2 | h2
          · exact Or.inl h2
          · exact Or.inr (by simp [h2])
    · rw [if_neg hd] at h
      rcases List.mem_cons.mp h with h1 | h1
      · exact Or.inr (by simp [h1])
      · rcases ih false c h1 with h2 | h2
        · exact Or.inl h2
        · exact Or.inr (by simp [h2])

theorem sharedStem_digit_free {x : List Char}
    (h : ∀ c ∈ x, c.isDigit = false) :
    ∀ c ∈ sharedStem x, c.isDigit = false := by
  intro c hc
  rcases collapseWsAux_mem _ false c hc with h1 | h1
  · subst h1; rfl
  · obtain ⟨d, hd, hdl⟩ := List.mem_map.mp (List.mem_filter.mp h1).1
    subst hdl
    exact jsToLower_isDigit_false (h d hd)

/-- C10 counterexample: the verification script's normalizer lacks the
    year-sentinel rule (and the season/"powered by"/"sponsored by"
    rules), so the two normalizers differ on `"run 2024"`. -/
theorem C10_counterexample :
    verifyNormalizeEventName "run 2024".toList ≠ normalizeEventName "run 2024".toList := by
  decide

/-- C10 (amended): the two `normalizeEventName` implementations are not
    the same function (they differ on any name containing a four-digit
    year, a "season N" token, or a "powered by"/"sponsored by" tail);
    they do agree on every input without digits whose
    lower-cased/pipe-stripped/whitespace-collapsed form contains no
    "powered by" or "sponsored by" occurrence. -/
theorem C10_amended (x : List Char)
    (hdig : x.all (fun c => c.isDigit = false) = true)
    (hpow : hasTokCI "powered by".toList (sharedStem x) = false)
    (hspon : hasTokCI "sponsored by".toList (sharedStem x) = false) :
    verifyNormalizeEventName x = normalizeEventName x := by
  by_cases hx : x = []
  · subst hx; rfl
  · have hdig' : ∀ c ∈ x, c.isDigit = false := by
      intro c hc
      simpa using List.all_eq_true.mp hdig c hc
    have hz : ∀ c ∈ sharedStem x, c.isDigit = false := sharedStem_digit_free hdig'
    rw [verifyNormalizeEventName, if_neg hx, normalizeEventName, if_neg hx]
    have hs : collapseWs ((x.map jsToLower).filter (fun c => ¬ c = '|')) = sharedStem x := rfl
    rw [hs]
    rw [stripDistSuffix_id hz, stripDistSuffix_id hz, stripTokNum_id hz,
      stripTokNum_id hz, replaceYears_id hz, stripFromTok_id hpow, stripFromTok_id hspon]

/-- C10 witness: a digit-free name on which both normalizers agree. -/
theorem C10_witness :
    verifyNormalizeEventName "Hello  Run".toList = normalizeEventName "Hello  Run".toList :=
  C10_amended "Hello  Run".toList (by decide) (by decide) (by decide)

/-! ## Claim C4: the consistency checker -/

theorem insertLex_mem (x y : List Char) :
    ∀ l, x ∈ insertLex y l ↔ x = y ∨ x ∈ l := by
  intro l
  induction l with
  | nil => simp [insertLex]
  | cons z zs ih =>
    rw [insertLex]
    by_cases h : lexLt z y = true
    · rw [if_pos h]
      simp only [List.mem_cons, ih]
      tauto
    · rw [if_neg h]
      simp only [List.mem_cons]

theorem sortLex_mem (x : List Char) :
    ∀ l, x ∈ sortLex l ↔ x ∈ l := by
  intro l
  induction l with
  | nil => simp [sortLex]
  | cons z zs ih =>
    show x ∈ insertLex z (sortLex zs) ↔ _
    rw [insertLex_mem, ih]
    simp

theorem insertLexPair_mem (x y : List Char × ℕ) :
    ∀ l, x ∈ insertLexPair y l ↔ x = y ∨ x ∈ l := by
  intro l
  induction l with
  | nil => simp [insertLexPair]
  | cons z zs ih =>
    rw [insertLexPair]
    by_cases h : lexLt z.1 y.1 = true
    · rw [if_pos h]
      simp only [List.mem_cons, ih]
      tauto
    · rw [if_neg h]
      simp only [List.mem_cons]

theorem sortLexPairs_mem (x : List Char × ℕ) :
    ∀ l, x ∈ sortLexPairs l ↔ x ∈ l := by
  intro l
  induction l with
  | nil => simp [sortLexPairs]
  | cons z zs ih =>
    show x ∈ insertLexPair z (sortLexPairs zs) ↔ _
    rw [insertLexPair_mem, ih]
    simp

theorem dedupKeepFirst_mem (x : List Char) :
    ∀ l, x ∈ dedupKeepFirst l ↔ x ∈ l := by
  intro l
  induction l with
  | nil => simp [dedupKeepFirst]
  | cons z zs ih =>
    rw [dedupKeepFirst]
    simp only [List.mem_cons, List.mem_filter, ih, decide_eq_true_eq]
    by_cases hx : x = z
    · simp [hx]
    · simp [hx]

/-- C4: `analyze` computes `missingInEventsJson` as exactly the corpus
    ids absent from the catalog's extracted ids, `missingRawFiles` as
    exactly the extracted catalog ids absent from the corpus, and
    `duplicates` as exactly the ids whose occurrence count among the
    extracted ids exceeds one, paired with that count; on catalog ids
    {1,2,3} and corpus ids {2,3,4} it yields `missingInEventsJson =
    ["4"]` and `missingRawFiles = ["1"]`, and two records both
    referencing id "555" yield exactly one duplicate entry with
    count 2. -/
theorem C4_analyze :
    (∀ (rawIds : List (List Char)) (events : List EventRec),
      (∀ id, id ∈ (analyze rawIds events).missingInEventsJson ↔
        (id ∈ rawIds ∧ ¬ id ∈ extractIdsFromEvents events)) ∧
      (∀ id, id ∈ (analyze rawIds events).missingRawFiles ↔
        (id ∈ extractIdsFromEvents events ∧ ¬ id ∈ rawIds)) ∧
      (∀ id c, (id, c) ∈ (analyze rawIds events).duplicates ↔
        ((extractIdsFromEvents events).count id = c ∧ 1 < c))) ∧
    (analyze ["2".toList, "3".toList, "4".toList]
        [⟨"a".toList, some "https://www.facebook.com/events/1".toList⟩,
         ⟨"b".toList, some "https://www.facebook.com/events/2".toList⟩,
         ⟨"c".toList, some "https://www.facebook.com/events/3".toList⟩]).missingInEventsJson
      = ["4".toList] ∧
    (analyze ["2".toList, "3".toList, "4".toList]
        [⟨"a".toList, some "https://www.facebook.com/events/1".toList⟩,
         ⟨"b".toList, some "https://www.facebook.com/events/2".toList⟩,
         ⟨"c".toList, some "https://www.facebook.com/events/3".toList⟩]).missingRawFiles
      = ["1".toList] ∧
    (analyze ["555".toList]
        [⟨"a".toList, some "https://www.facebook.com/events/555".toList⟩,
         ⟨"b".toList, some "https://www.facebook.com/events/555".toList⟩]).duplicates
      = [("555".toList, 2)] := by
  refine ⟨?_, by decide, by decide, by decide⟩
  intro rawIds events
  refine ⟨?_, ?_, ?_⟩
  · intro id
    rw [analyze]
    simp only [sortLex_mem, List.mem_filter, decide_eq_true_eq, dedupKeepFirst_mem]
  · intro id
    rw [analyze]
    simp only [sortLex_mem, List.mem_filter, decide_eq_true_eq, dedupKeepFirst_mem]
  · intro id c
    rw [analyze]
    simp only [sortLexPairs_mem, List.mem_filter, List.mem_map, dedupKeepFirst_mem,
      decide_eq_true_eq]
    constructor
    · rintro ⟨⟨id', hid', heq⟩, hc⟩
      cases heq
      exact ⟨rfl, hc⟩
    · rintro ⟨hcount, hc⟩
      subst hcount
      refine ⟨⟨id, ?_, rfl⟩, hc⟩
      have hpos : 0 < (extractIdsFromEvents events).count id := by omega
      exact List.count_pos_iff_mem.mp hpos

/-! ## The reconciler search: characterization of `findGo` -/

theorem calculateSimilarity_nonneg (a b : List Char) :
    0 ≤ calculateSimilarity a b := by
  rw [calculateSimilarity_formula]
  apply div_nonneg
  · have h := levenshteinDistance_le_max a b
    have hc : (levenshteinDistance a b : ℚ) ≤ ((max a.length b.length : ℕ) : ℚ) := by
      exact_mod_cast h
    linarith
  · exact Nat.cast_nonneg _

theorem findGo_some_ne_none (nt : List Char) :
    ∀ (l : List (List Char × RawEventEntry)) (b : MatchResult) (bs : ℚ),
      findGo nt l (some b) bs ≠ none := by
  intro l
  induction l with
  | nil => intro b bs h; simp [findGo] at h
  | cons p rest ih =>
    intro b bs
    rw [show (p : List Char × RawEventEntry) = (p.1, p.2) from rfl, findGo]
    by_cases h : calculateSimilarity nt p.2.normalizedName > bs ∧
        calculateSimilarity nt p.2.normalizedName > 7/10
    · rw [if_pos h]; exact ih _ _
    · rw [if_neg h]; exact ih _ _

theorem findGo_none_iff (nt : List Char) :
    ∀ (l : List (List Char × RawEventEntry)),
      findGo nt l none 0 = none ↔
        ∀ p ∈ l, calculateSimilarity nt p.2.normalizedName ≤ 7/10 := by
  intro l
  induction l with
  | nil => simp [findGo]
  | cons p rest ih =>
    rw [show (p : List Char × RawEventEntry) = (p.1, p.2) from rfl, findGo]
    by_cases h : calculateSimilarity nt p.2.normalizedName > 0 ∧
        calculateSimilarity nt p.2.normalizedName > 7/10
    · rw [if_pos h]
      constructor
      · intro hh; exact absurd hh (findGo_some_ne_none nt rest _ _)
      · intro hh
        exact absurd (hh (p.1, p.2) (by simp)) (by simp; linarith [h.2])
    · rw [if_neg h]
      rw [ih]
      constructor
      · intro hh q hq
        rcases List.mem_cons.mp hq with h1 | h1
        · subst h1
          by_contra hgt
          push_neg at hgt
          have h0 : (0:ℚ) < 7/10 := by norm_num
          exact h ⟨lt_trans h0 hgt, hgt⟩
        · exact hh q h1
      · intro hh q hq
        exact hh q (by simp [hq])

theorem findGo_some_src (nt : List Char) :
    ∀ (l : List (List Char × RawEventEntry)) (b : Option MatchResult) (bs : ℚ)
      (m : MatchResult), findGo nt l b bs = some m →
      b = some m ∨
      ∃ p ∈ l, m = ⟨p.1, p.2.eventName, calculateSimilarity nt p.2.normalizedName⟩ ∧
        m.similarity > 7/10 := by
  intro l
  induction l with
  | nil =>
    intro b bs m h
    rw [findGo] at h
    exact Or.inl h
  | cons p rest ih =>
    intro b bs m h
    rw [show (p : List Char × RawEventEntry) = (p.1, p.2) from rfl, findGo] at h
    by_cases hc : calculateSimilarity nt p.2.normalizedName > bs ∧
        calculateSimilarity nt p.2.normalizedName > 7/10
    · rw [if_pos hc] at h
      rcases ih _ _ _ h with h1 | h1
      · refine Or.inr ⟨(p.1, p.2), by simp, ?_, ?_⟩
        · exact (Option.some_injective _ h1).symm
        · have := Option.some_injective _ h1
          rw [← this]
          exact hc.2
      · obtain ⟨q, hq, hm⟩ := h1
        exact Or.inr ⟨q, by simp [hq], hm⟩
    · rw [if_neg hc] at h
      rcases ih _ _ _ h with h1 | h1
      · exact Or.inl h1
      · obtain ⟨q, hq, hm⟩ := h1
        exact Or.inr ⟨q, by simp [hq], hm⟩

theorem findCorrectEventId_none_iff (name : List Char)
    (idx : List (List Char × RawEventEntry)) :
    findCorrectEventId name idx = none ↔
      ∀ p ∈ idx,
        calculateSimilarity (normalizeEventName name) p.2.normalizedName ≤ 7/10 := by
  rw [findCorrectEventId]
  exact findGo_none_iff _ idx

theorem findCorrectEventId_some_entry {name : List Char}
    {idx : List (List Char × RawEventEntry)} {m : MatchResult}
    (h : findCorrectEventId name idx = some m) :
    ∃ p ∈ idx,
      m = ⟨p.1, p.2.eventName,
        calculateSimilarity (normalizeEventName name) p.2.normalizedName⟩ ∧
      m.similarity > 7/10 := by
  rw [findCorrectEventId] at h
  rcases findGo_some_src _ idx none 0 m h with h1 | h1
  · cases h1
  · exact h1

/-- Continuing the scan from an accepted best `b`: the result is `b`
    itself (and nothing later beats it) or the first entry attaining
    the maximum similarity, which strictly beats `b`. -/
theorem findGo_char (nt : List Char) :
    ∀ (l : List (List Char × RawEventEntry)) (b m : MatchResult),
      b.similarity > 7/10 →
      findGo nt l (some b) b.similarity = some m →
      (m = b ∧ ∀ p ∈ l, calculateSimilarity nt p.2.normalizedName ≤ b.similarity) ∨
      (∃ l1 p l2, l = l1 ++ p :: l2 ∧
        m = ⟨p.1, p.2.eventName, calculateSimilarity nt p.2.normalizedName⟩ ∧
        calculateSimilarity nt p.2.normalizedName > b.similarity ∧
        (∀ q ∈ l1, calculateSimilarity nt q.2.normalizedName <
          calculateSimilarity nt p.2.normalizedName) ∧
        (∀ q ∈ l2, calculateSimilarity nt q.2.normalizedName ≤
          calculateSimilarity nt p.2.normalizedName)) := by
  intro l
  induction l with
  | nil =>
    intro b m hb h
    rw [findGo] at h
    exact Or.inl ⟨(Option.some_injective _ h).symm, by simp⟩
  | cons p rest ih =>
    intro b m hb h
    rw [show (p : List Char × RawEventEntry) = (p.1, p.2) from rfl, findGo] at h
    by_cases hc : calculateSimilarity nt p.2.normalizedName > b.similarity ∧
        calculateSimilarity nt p.2.normalizedName > 7/10
    · rw [if_pos hc] at h
      rcases ih ⟨p.1, p.2.eventName, calculateSimilarity nt p.2.normalizedName⟩ m
          hc.2 h with h1 | h1
      · refine Or.inr ⟨[], (p.1, p.2), rest, by simp, h1.1, hc.1, by simp, ?_⟩
        exact h1.2
      · obtain ⟨l1, q, l2, hdec, hm, hgt, hl1, hl2⟩ := h1
        refine Or.inr ⟨(p.1, p.2) :: l1, q, l2, by simp [hdec], hm, ?_, ?_, hl2⟩
        · exact lt_trans hc.1 hgt
        · intro r hr
          rcases List.mem_cons.mp hr with h2 | h2
          · subst h2; exact hgt
          · exact hl1 r h2
    · rw [if_neg hc] at h
      have hple : calculateSimilarity nt p.2.normalizedName ≤ b.similarity := by
        by_contra hgt
        push_neg at hgt
        exact hc ⟨hgt, lt_trans hb hgt⟩
      rcases ih b m hb h with h1 | h1
      · refine Or.inl ⟨h1.1, ?_⟩
        intro q hq
        rcases List.mem_cons.mp hq with h2 | h2
        · subst h2; exact hple
        · exact h1.2 q h2
      · obtain ⟨l1, q, l2, hdec, hm, hgt, hl1, hl2⟩ := h1
        refine Or.inr ⟨(p.1, p.2) :: l1, q, l2, by simp [hdec], hm, hgt, ?_, hl2⟩
        intro r hr
        rcases List.mem_cons.mp hr with h2 | h2
        · subst h2; exact lt_of_le_of_lt hple hgt
        · exact hl1 r h2

/-- `findCorrectEventId` returns the first entry attaining the maximum
    similarity above the floor `0.7`. -/
theorem findCorrectEventId_first_max {name : List Char}
    {idx : List (List Char × RawEventEntry)} {m : MatchResult}
    (h : findCorrectEventId name idx = some m) :
    ∃ l1 p l2, idx = l1 ++ p :: l2 ∧
      m = ⟨p.1, p.2.eventName,
        calculateSimilarity (normalizeEventName name) p.2.normalizedName⟩ ∧
      calculateSimilarity (normalizeEventName name) p.2.normalizedName > 7/10 ∧
      (∀ q ∈ l1, calculateSimilarity (normalizeEventName name) q.2.normalizedName <
        calculateSimilarity (normalizeEventName name) p.2.normalizedName) ∧
      (∀ q ∈ l2, calculateSimilarity (normalizeEventName name) q.2.normalizedName ≤
        calculateSimilarity (normalizeEventName name) p.2.normalizedName) := by
  rw [findCorrectEventId] at h
  -- peel the leading entries at or below the floor
  generalize hnt : normalizeEventName name = nt at h ⊢
  clear hnt
  induction idx with
  | nil => rw [findGo] at h; cases h
  | cons p rest ih =>
    rw [show (p : List Char × RawEventEntry) = (p.1, p.2) from rfl, findGo] at h
    by_cases hc : calculateSimilarity nt p.2.normalizedName > 0 ∧
        calculateSimilarity nt p.2.normalizedName > 7/10
    · rw [if_pos hc] at h
      rcases findGo_char nt rest ⟨p.1, p.2.eventName,
          calculateSimilarity nt p.2.normalizedName⟩ m hc.2 h with h1 | h1
      · exact ⟨[], (p.1, p.2), rest, by simp, h1.1, hc.2, by simp, h1.2⟩
      · obtain ⟨l1, q, l2, hdec, hm, hgt, hl1, hl2⟩ := h1
        refine ⟨(p.1, p.2) :: l1, q, l2, by simp [hdec], hm, ?_, ?_, hl2⟩
        · exact lt_trans hc.2 hgt
        · intro r hr
          rcases List.mem_cons.mp hr with h2 | h2
          · subst h2; exact hgt
          · exact hl1 r h2
    · rw [if_neg hc] at h
      have hple : calculateSimilarity nt p.2.normalizedName ≤ 7/10 := by
        by_contra hgt
        push_neg at hgt
        have h0 : (0:ℚ) < 7/10 := by norm_num
        exact hc ⟨lt_trans h0 hgt, hgt⟩
      obtain ⟨l1, q, l2, hdec, hm, hgt, hl1, hl2⟩ := ih h
      refine ⟨(p.1, p.2) :: l1, q, l2, by simp [hdec], hm, hgt, ?_, hl2⟩
      intro r hr
      rcases List.mem_cons.mp hr with h2 | h2
      · subst h2; exact lt_of_le_of_lt hple hgt
      · exact hl1 r h2

/-- Exhaustive shape of one reconciler step: either nothing happens
    and the record is returned unchanged, or all five conditions for a
    correction hold and the link is rewritten. -/
theorem processEvent_eq (idx : List (List Char × RawEventEntry)) (i : ℕ) (ev : EventRec) :
    processEvent idx i ev = (none, ev) ∨
    ∃ link currentId currentRaw m,
      ev.fbLink = some link ∧
      extractIdFromLink link = some currentId ∧
      indexLookup idx currentId = some currentRaw ∧
      calculateSimilarity (normalizeEventName ev.name) currentRaw.normalizedName < 7/10 ∧
      findCorrectEventId ev.name idx = some m ∧
      ¬ m.eventId = currentId ∧
      processEvent idx i ev =
        (some ⟨i + 1, ev.name, currentId, currentRaw.eventName, m.eventId, m.eventName,
          m.similarity, link, newFbLink m.eventId⟩,
         { ev with fbLink := some (newFbLink m.eventId) }) := by
  cases h1 : ev.fbLink with
  | none => exact Or.inl (by simp [processEvent, h1])
  | some link =>
    cases h2 : extractIdFromLink link with
    | none => exact Or.inl (by simp [processEvent, h1, h2])
    | some currentId =>
      cases h3 : indexLookup idx currentId with
      | none => exact Or.inl (by simp [processEvent, h1, h2, h3])
      | some currentRaw =>
        by_cases h4 : calculateSimilarity (normalizeEventName ev.name)
            currentRaw.normalizedName ≥ 7/10
        · exact Or.inl (by simp [processEvent, h1, h2, h3, h4])
        · cases h5 : findCorrectEventId ev.name idx with
          | none => exact Or.inl (by simp [processEvent, h1, h2, h3, h4, h5])
          | some m =>
            by_cases h6 : m.eventId = currentId
            · exact Or.inl (by simp [processEvent, h1, h2, h3, h4, h5, h6])
            · refine Or.inr ⟨link, currentId, currentRaw, m, rfl, h2, h3,
                not_le.mp h4, rfl, h6, ?_⟩
              simp [processEvent, h1, h2, h3, h4, h5, h6]

/-- When all conditions for a correction hold, the step rewrites the
    link and emits the fix entry. -/
theorem processEvent_fix {idx : List (List Char × RawEventEntry)} {i : ℕ} {ev : EventRec}
    {link currentId : List Char} {currentRaw : RawEventEntry} {m : MatchResult}
    (h1 : ev.fbLink = some link) (h2 : extractIdFromLink link = some currentId)
    (h3 : indexLookup idx currentId = some currentRaw)
    (h4 : calculateSimilarity (normalizeEventName ev.name) currentRaw.normalizedName < 7/10)
    (h5 : findCorrectEventId ev.name idx = some m) (h6 : ¬ m.eventId = currentId) :
    processEvent idx i ev =
      (some ⟨i + 1, ev.name, currentId, currentRaw.eventName, m.eventId, m.eventName,
        m.similarity, link, newFbLink m.eventId⟩,
       { ev with fbLink := some (newFbLink m.eventId) }) := by
  simp [processEvent, h1, h2, h3, not_le.mpr h4, h5, h6]

theorem takeWhile_all {p : Char → Bool} :
    ∀ {l : List Char}, l.all p = true → l.takeWhile p = l := by
  intro l
  induction l with
  | nil => intro _; rfl
  | cons c rest ih =>
    intro h
    simp only [List.all_cons, Bool.and_eq_true] at h
    rw [List.takeWhile_cons, if_pos h.1, ih h.2]

/-- The link written by the fix script round-trips through the id
    extraction, for the digit-string ids of the raw corpus. -/
theorem extractIdFromLink_newFbLink {id : List Char}
    (hne : id ≠ []) (hdig : id.all Char.isDigit = true) :
    extractIdFromLink (newFbLink id) = some id := by
  cases id with
  | nil => exact absurd rfl hne
  | cons d ds =>
    simp only [List.all_cons, Bool.and_eq_true] at hdig
    have key : extractIdFromLink (newFbLink (d :: ds)) =
        (if d.isDigit = true then some ((d :: ds).takeWhile Char.isDigit)
         else extractDigitsAfterTok "events/".toList ("vents/".toList ++ d :: ds)) := rfl
    rw [key, if_pos hdig.1, takeWhile_all (by simp [hdig.1, hdig.2])]

/-- Property lookup on an index with unique keys finds the entry. -/
theorem indexLookup_of_nodup :
    ∀ {idx : List (List Char × RawEventEntry)} {k : List Char} {v : RawEventEntry},
      (idx.map Prod.fst).Nodup → (k, v) ∈ idx → indexLookup idx k = some v := by
  intro idx
  induction idx with
  | nil => intro k v _ h; simp at h
  | cons p rest ih =>
    intro k v hnd hm
    simp only [List.map_cons, List.nodup_cons] at hnd
    rcases List.mem_cons.mp hm with h1 | h1
    · subst h1
      rw [indexLookup, List.find?_cons_of_pos _ (by simp)]
      rfl
    · have hk : ¬ p.1 = k := by
        intro he
        exact hnd.1 (he ▸ (List.mem_map.mpr ⟨(k, v), h1, rfl⟩))
      rw [indexLookup, List.find?_cons_of_neg _ (by simp [hk])]
      exact ih hnd.2 h1

/-- A step on the output of a step makes no further change: the core of
    end-to-end idempotence. -/
theorem processEvent_stable (idx : List (List Char × RawEventEntry))
    (hids : ∀ p ∈ idx, p.1 ≠ [] ∧ p.1.all Char.isDigit = true)
    (hnd : (idx.map Prod.fst).Nodup) (i j : ℕ) (ev : EventRec) :
    processEvent idx j (processEvent idx i ev).2 = (none, (processEvent idx i ev).2) := by
  rcases processEvent_eq idx i ev with h | h
  · rw [h]
    rcases processEvent_eq idx j ev with h2 | h2
    · exact h2
    · obtain ⟨_, _, _, _, _, _, _, _, _, _, hfix⟩ := h2
      -- the shape is deterministic: the i-run said no fix, so the j-run
      -- takes the same branch
      rcases processEvent_eq idx j ev with h3 | h3
      · exact h3
      · obtain ⟨link, currentId, currentRaw, m, e1, e2, e3, e4, e5, e6, hfix3⟩ := h3
        have := processEvent_fix (i := i) e1 e2 e3 e4 e5 e6
        rw [h] at this
        cases this
  · obtain ⟨link, currentId, currentRaw, m, e1, e2, e3, e4, e5, e6, hfix⟩ := h
    rw [hfix]
    obtain ⟨p, hp, hmp, hsim⟩ := findCorrectEventId_some_entry e5
    have hid : m.eventId = p.1 := by rw [hmp]
    have hdigs := hids p hp
    have hext : extractIdFromLink (newFbLink m.eventId) = some m.eventId := by
      rw [hid]
      exact extractIdFromLink_newFbLink hdigs.1 hdigs.2
    have hlook : indexLookup idx m.eventId = some p.2 := by
      rw [hid]
      exact indexLookup_of_nodup hnd (by simpa using hp)
    have hsim2 : calculateSimilarity (normalizeEventName ev.name) p.2.normalizedName ≥ 7/10 := by
      have : m.similarity = calculateSimilarity (normalizeEventName ev.name)
          p.2.normalizedName := by rw [hmp]
      rw [this] at hsim
      exact le_of_lt hsim
    simp [processEvent, hext, hlook, hsim2]

/-- Running the loop a second time over its own output produces no
    fixes and leaves the records unchanged. -/
theorem runFixAux_second (idx : List (List Char × RawEventEntry))
    (hids : ∀ p ∈ idx, p.1 ≠ [] ∧ p.1.all Char.isDigit = true)
    (hnd : (idx.map Prod.fst).Nodup) :
    ∀ (es : List EventRec) (i : ℕ),
      runFixAux idx i (runFixAux idx i es).2 = ([], (runFixAux idx i es).2) := by
  intro es
  induction es with
  | nil => intro i; rfl
  | cons ev rest ih =>
    intro i
    rw [runFixAux]
    have h2 := processEvent_stable idx hids hnd i i ev
    have h3 := ih (i + 1)
    cases hstep : (processEvent idx i ev).1 with
    | some fr => simp only [runFixAux, h2, h3]
    | none => simp only [runFixAux, h2, h3]

/-! ## Claim C9 -/

/-- C9: with the raw corpus ids being (unique) digit strings — which
    `getAllRawEventFiles` guarantees, since ids come from unique file
    names matching `^(\d+)\.txt$` — running `fixFacebookLinks` a second
    time on the catalog produced by a first run yields zero fixes, an
    empty report, and an unchanged catalog. -/
theorem C9_second_run_is_noop (idx : List (List Char × RawEventEntry))
    (events : List EventRec)
    (hids : ∀ p ∈ idx, p.1 ≠ [] ∧ p.1.all Char.isDigit = true)
    (hnd : (idx.map Prod.fst).Nodup) :
    fixFacebookLinks idx (fixFacebookLinks idx events).2.2 =
      (0, [], (fixFacebookLinks idx events).2.2) := by
  show fixFacebookLinks idx (runFixAux idx 0 events).2 = _
  rw [fixFacebookLinks, runFixAux_second idx hids hnd events 0]
  rfl

theorem calculateSimilarity_self {x : List Char} (h : x ≠ []) :
    calculateSimilarity x x = 1 := by
  rw [calculateSimilarity_formula, levenshteinDistance_self, Nat.max_self]
  have hn : (0 : ℚ) < (x.length : ℚ) := by
    exact_mod_cast List.length_pos.mpr h
  rw [Nat.cast_zero, sub_zero, div_self (ne_of_gt hn)]

theorem calculateSimilarity_nil_left (b : List Char) :
    calculateSimilarity [] b = 0 := by
  rw [calculateSimilarity, if_pos (Or.inl rfl)]

/-! ## Claim C5 -/

/-- C5 counterexample: two names both normalizing to the empty string
    ("powered by …" and "sponsored by …" tails are stripped whole).
    The record's normalized name then equals the indexed entry's
    `normalizedName` exactly, but the computed similarity is 0, not
    1.0, because `calculateSimilarity` returns 0 when either input is
    empty. -/
theorem C5_counterexample :
    normalizeEventName "powered by x".toList =
      normalizeEventName "sponsored by y".toList ∧
    calculateSimilarity (normalizeEventName "powered by x".toList)
      (normalizeEventName "sponsored by y".toList) ≠ 1 := by
  refine ⟨by decide, ?_⟩
  rw [show normalizeEventName "powered by x".toList = [] from by decide,
    show normalizeEventName "sponsored by y".toList = [] from by decide,
    calculateSimilarity_nil_left]
  norm_num

/-- C5 (amended): if a catalog record's reference id resolves in the
    index and `normalizeEventName(record.name)` equals the entry's
    `normalizedName` exactly, then the computed similarity is 1.0
    provided the common normalized name is non-empty (it is 0 when both
    normalize to the empty string), and in either case the reconciler
    emits no correction and leaves the record unchanged. -/
theorem C5_equal_normalized_names (idx : List (List Char × RawEventEntry)) (i : ℕ)
    (ev : EventRec) (link currentId : List Char) (r : RawEventEntry)
    (h1 : ev.fbLink = some link) (h2 : extractIdFromLink link = some currentId)
    (h3 : indexLookup idx currentId = some r)
    (heq : normalizeEventName ev.name = r.normalizedName) :
    (normalizeEventName ev.name ≠ [] →
      calculateSimilarity (normalizeEventName ev.name) r.normalizedName = 1) ∧
    processEvent idx i ev = (none, ev) := by
  constructor
  · intro hne
    rw [← heq]
    exact calculateSimilarity_self hne
  · by_cases hne : normalizeEventName ev.name = []
    · have hnil : r.normalizedName = [] := by rw [← heq, hne]
      have hsim : calculateSimilarity (normalizeEventName ev.name) r.normalizedName = 0 := by
        rw [hne, calculateSimilarity_nil_left]
      have hfind : findCorrectEventId ev.name idx = none := by
        rw [findCorrectEventId_none_iff]
        intro p _
        rw [hne, calculateSimilarity_nil_left]
        norm_num
      have hlt : ¬ calculateSimilarity (normalizeEventName ev.name)
          r.normalizedName ≥ 7/10 := by
        rw [hsim]; norm_num
      simp [processEvent, h1, h2, h3, hlt, hfind]
    · have hsim : calculateSimilarity (normalizeEventName ev.name) r.normalizedName = 1 := by
        rw [← heq]; exact calculateSimilarity_self hne
      have hge : calculateSimilarity (normalizeEventName ev.name)
          r.normalizedName ≥ 7/10 := by
        rw [hsim]; norm_num
      simp [processEvent, h1, h2, h3, hge]

/-- C5 witness: a record whose name normalizes exactly to the indexed
    entry's normalized name. -/
theorem C5_witness :
    (normalizeEventName "City Marathon".toList ≠ [] →
      calculateSimilarity (normalizeEventName "City Marathon".toList)
        (RawEventEntry.mk "1".toList "city marathon".toList
          (normalizeEventName "city marathon".toList)).normalizedName = 1) ∧
    processEvent
      [("1".toList, RawEventEntry.mk "1".toList "city marathon".toList
        (normalizeEventName "city marathon".toList))] 0
      (EventRec.mk "City Marathon".toList
        (some "https://www.facebook.com/events/1".toList)) =
      (none, EventRec.mk "City Marathon".toList
        (some "https://www.facebook.com/events/1".toList)) :=
  C5_equal_normalized_names
    [("1".toList, RawEventEntry.mk "1".toList "city marathon".toList
      (normalizeEventName "city marathon".toList))] 0
    (EventRec.mk "City Marathon".toList
      (some "https://www.facebook.com/events/1".toList))
    "https://www.facebook.com/events/1".toList "1".toList
    (RawEventEntry.mk "1".toList "city marathon".toList
      (normalizeEventName "city marathon".toList))
    rfl (by decide) (by decide) (by decide)

/-! ## Claim C6 -/

theorem simC6_low :
    calculateSimilarity "aaaaaaaaaa".toList "aaaaaaaabb".toList = 4/5 := by
  have hd : levenshteinDistance "aaaaaaaaaa".toList "aaaaaaaabb".toList = 2 := by decide
  have hm : max "aaaaaaaaaa".toList.length "aaaaaaaabb".toList.length = 10 := by decide
  rw [calculateSimilarity_formula, hd, hm]
  norm_num

/-- Evaluation of `findCorrectEventId` on the two-entry index used to
    refute the unconditional reconciler claim. -/
theorem findCorrect_concrete :
    findCorrectEventId "aaaaaaaaaa".toList
      [("1".toList, RawEventEntry.mk "1".toList "aaaaaaaabb".toList
          (normalizeEventName "aaaaaaaabb".toList)),
       ("2".toList, RawEventEntry.mk "2".toList "aaaaaaaaaa".toList
          (normalizeEventName "aaaaaaaaaa".toList))] =
      some (MatchResult.mk "2".toList "aaaaaaaaaa".toList 1) := by
  have hn : normalizeEventName "aaaaaaaaaa".toList = "aaaaaaaaaa".toList := by decide
  have hn1 : normalizeEventName "aaaaaaaabb".toList = "aaaaaaaabb".toList := by decide
  have hs2 : calculateSimilarity "aaaaaaaaaa".toList "aaaaaaaaaa".toList = 1 :=
    calculateSimilarity_self (by decide)
  rw [findCorrectEventId, hn]
  rw [findGo]
  simp only [hn1, simC6_low]
  rw [if_pos (by norm_num : (4/5 : ℚ) > 0 ∧ (4/5 : ℚ) > 7/10)]
  rw [findGo]
  simp only [hn, hs2]
  rw [if_pos (by norm_num : (1 : ℚ) > 4/5 ∧ (1 : ℚ) > 7/10)]
  rw [findGo]

/-- C6 counterexample: the claim's "the Reconciler emits a correction
    if and only if such a candidate exists and its id differs" omits
    the precondition that the current link's similarity is below the
    acceptance threshold.  Here the record's current link (id "1",
    similarity 0.8 ≥ 0.7) is accepted, yet `findCorrectEventId` returns
    the strictly better candidate id "2" ≠ "1" — a candidate exists and
    differs, but no correction is emitted. -/
theorem C6_counterexample :
    findCorrectEventId "aaaaaaaaaa".toList
      [("1".toList, RawEventEntry.mk "1".toList "aaaaaaaabb".toList
          (normalizeEventName "aaaaaaaabb".toList)),
       ("2".toList, RawEventEntry.mk "2".toList "aaaaaaaaaa".toList
          (normalizeEventName "aaaaaaaaaa".toList))] =
      some (MatchResult.mk "2".toList "aaaaaaaaaa".toList 1) ∧
    ¬ ("2".toList : List Char) = "1".toList ∧
    extractIdFromLink "https://www.facebook.com/events/1".toList = some "1".toList ∧
    processEvent
      [("1".toList, RawEventEntry.mk "1".toList "aaaaaaaabb".toList
          (normalizeEventName "aaaaaaaabb".toList)),
       ("2".toList, RawEventEntry.mk "2".toList "aaaaaaaaaa".toList
          (normalizeEventName "aaaaaaaaaa".toList))] 0
      (EventRec.mk "aaaaaaaaaa".toList
        (some "https://www.facebook.com/events/1".toList)) =
      (none, EventRec.mk "aaaaaaaaaa".toList
        (some "https://www.facebook.com/events/1".toList)) := by
  refine ⟨findCorrect_concrete, by decide, by decide, ?_⟩
  have hge : calculateSimilarity (normalizeEventName "aaaaaaaaaa".toList)
      (normalizeEventName "aaaaaaaabb".toList) ≥ 7/10 := by
    rw [show normalizeEventName "aaaaaaaaaa".toList = "aaaaaaaaaa".toList from by decide,
      show normalizeEventName "aaaaaaaabb".toList = "aaaaaaaabb".toList from by decide,
      simC6_low]
    norm_num
  have hext : extractIdFromLink "https://www.facebook.com/events/1".toList =
      some "1".toList := by decide
  have hlook : indexLookup
      [("1".toList, RawEventEntry.mk "1".toList "aaaaaaaabb".toList
          (normalizeEventName "aaaaaaaabb".toList)),
       ("2".toList, RawEventEntry.mk "2".toList "aaaaaaaaaa".toList
          (normalizeEventName "aaaaaaaaaa".toList))] "1".toList =
      some (RawEventEntry.mk "1".toList "aaaaaaaabb".toList
        (normalizeEventName "aaaaaaaabb".toList)) := by decide
  simp only [processEvent, hext, hlook]
  rw [if_pos hge]

/-- C6 (amended): `findCorrectEventId` returns `none` exactly when no
    index entry's similarity exceeds 0.7; otherwise it returns the
    first entry attaining the maximum similarity above the floor.  The
    reconciler emits a correction for a record iff the record's link
    yields an id that resolves in the index, the current similarity is
    below 0.7, **and** a candidate exists whose id differs from the
    current one; in every other case the record is left untouched. -/
theorem C6_search_and_correction :
    (∀ (name : List Char) (idx : List (List Char × RawEventEntry)),
      findCorrectEventId name idx = none ↔
        ∀ p ∈ idx, calculateSimilarity (normalizeEventName name)
          p.2.normalizedName ≤ 7/10) ∧
    (∀ (name : List Char) (idx : List (List Char × RawEventEntry)) (m : MatchResult),
      findCorrectEventId name idx = some m →
      ∃ l1 p l2, idx = l1 ++ p :: l2 ∧
        m = ⟨p.1, p.2.eventName,
          calculateSimilarity (normalizeEventName name) p.2.normalizedName⟩ ∧
        calculateSimilarity (normalizeEventName name) p.2.normalizedName > 7/10 ∧
        (∀ q ∈ l1, calculateSimilarity (normalizeEventName name) q.2.normalizedName <
          calculateSimilarity (normalizeEventName name) p.2.normalizedName) ∧
        (∀ q ∈ l2, calculateSimilarity (normalizeEventName name) q.2.normalizedName ≤
          calculateSimilarity (normalizeEventName name) p.2.normalizedName)) ∧
    (∀ (idx : List (List Char × RawEventEntry)) (i : ℕ) (ev : EventRec),
      (¬ (processEvent idx i ev).1 = none ↔
        ∃ link currentId currentRaw m,
          ev.fbLink = some link ∧
          extractIdFromLink link = some currentId ∧
          indexLookup idx currentId = some currentRaw ∧
          calculateSimilarity (normalizeEventName ev.name)
            currentRaw.normalizedName < 7/10 ∧
          findCorrectEventId ev.name idx = some m ∧
          ¬ m.eventId = currentId) ∧
      ((processEvent idx i ev).1 = none → (processEvent idx i ev).2 = ev)) := by
  refine ⟨fun name idx => findCorrectEventId_none_iff name idx,
    fun name idx m h => findCorrectEventId_first_max h, ?_⟩
  intro idx i ev
  constructor
  · constructor
    · intro hne
      rcases processEvent_eq idx i ev with h | h
      · rw [h] at hne; simp at hne
      · obtain ⟨link, currentId, currentRaw, m, e1, e2, e3, e4, e5, e6, _⟩ := h
        exact ⟨link, currentId, currentRaw, m, e1, e2, e3, e4, e5, e6⟩
    · rintro ⟨link, currentId, currentRaw, m, e1, e2, e3, e4, e5, e6⟩
      rw [processEvent_fix e1 e2 e3 e4 e5 e6]
      simp
  · intro hnone
    rcases processEvent_eq idx i ev with h | h
    · rw [h]
    · obtain ⟨_, _, _, _, _, _, _, _, _, _, hfix⟩ := h
      rw [hfix] at hnone
      simp at hnone

/-- C6 witness: the first-maximum characterization applied to the
    concrete two-entry index. -/
theorem C6_witness :
    ∃ l1 p l2,
      [("1".toList, RawEventEntry.mk "1".toList "aaaaaaaabb".toList
          (normalizeEventName "aaaaaaaabb".toList)),
       ("2".toList, RawEventEntry.mk "2".toList "aaaaaaaaaa".toList
          (normalizeEventName "aaaaaaaaaa".toList))] = l1 ++ p :: l2 ∧
      (MatchResult.mk "2".toList "aaaaaaaaaa".toList 1) =
        ⟨p.1, p.2.eventName,
          calculateSimilarity (normalizeEventName "aaaaaaaaaa".toList)
            p.2.normalizedName⟩ ∧
      calculateSimilarity (normalizeEventName "aaaaaaaaaa".toList)
        p.2.normalizedName > 7/10 ∧
      (∀ q ∈ l1, calculateSimilarity (normalizeEventName "aaaaaaaaaa".toList)
          q.2.normalizedName <
        calculateSimilarity (normalizeEventName "aaaaaaaaaa".toList)
          p.2.normalizedName) ∧
      (∀ q ∈ l2, calculateSimilarity (normalizeEventName "aaaaaaaaaa".toList)
          q.2.normalizedName ≤
        calculateSimilarity (normalizeEventName "aaaaaaaaaa".toList)
          p.2.normalizedName) :=
  C6_search_and_correction.2.1 "aaaaaaaaaa".toList
    [("1".toList, RawEventEntry.mk "1".toList "aaaaaaaabb".toList
        (normalizeEventName "aaaaaaaabb".toList)),
     ("2".toList, RawEventEntry.mk "2".toList "aaaaaaaaaa".toList
        (normalizeEventName "aaaaaaaaaa".toList))]
    (MatchResult.mk "2".toList "aaaaaaaaaa".toList 1) findCorrect_concrete

/-! ## Claim C7 -/

theorem processEvent_none_snd {idx : List (List Char × RawEventEntry)} {i : ℕ}
    {ev : EventRec} (h : (processEvent idx i ev).1 = none) :
    (processEvent idx i ev).2 = ev := by
  rcases processEvent_eq idx i ev with h1 | h1
  · rw [h1]
  · obtain ⟨_, _, _, _, _, _, _, _, _, _, hfix⟩ := h1
    rw [hfix] at h
    simp at h

theorem processEvent_fix_index {idx : List (List Char × RawEventEntry)} {i : ℕ}
    {ev : EventRec} {f : FixRec} (h : (processEvent idx i ev).1 = some f) :
    f.eventIndex = i + 1 := by
  rcases processEvent_eq idx i ev with h1 | h1
  · rw [h1] at h; simp at h
  · obtain ⟨_, _, _, _, _, _, _, _, _, _, hfix⟩ := h1
    rw [hfix] at h
    simp only [Option.some.injEq] at h
    rw [← h]

theorem runFixAux_snd_cons (idx : List (List Char × RawEventEntry)) (k : ℕ)
    (ev : EventRec) (rest : List EventRec) :
    (runFixAux idx k (ev :: rest)).2 =
      (processEvent idx k ev).2 :: (runFixAux idx (k + 1) rest).2 := by
  cases h : (processEvent idx k ev).1 <;> simp [runFixAux, h]

theorem runFixAux_get (idx : List (List Char × RawEventEntry)) :
    ∀ (es : List EventRec) (k j : ℕ),
      ((runFixAux idx k es).2).get? j =
        (es.get? j).map (fun ev => (processEvent idx (k + j) ev).2) := by
  intro es
  induction es with
  | nil => intro k j; simp [runFixAux]
  | cons ev rest ih =>
    intro k j
    rw [runFixAux_snd_cons]
    cases j with
    | zero => simp
    | succ j =>
      have hk : k + (j + 1) = k + 1 + j := by omega
      simp only [List.get?_cons_succ, ih (k + 1) j, hk]

theorem runFixAux_fix_src (idx : List (List Char × RawEventEntry)) :
    ∀ (es : List EventRec) (k : ℕ) (f : FixRec), f ∈ (runFixAux idx k es).1 →
      ∃ j ev, es.get? j = some ev ∧ (processEvent idx (k + j) ev).1 = some f := by
  intro es
  induction es with
  | nil => intro k f h; simp [runFixAux] at h
  | cons ev rest ih =>
    intro k f h
    rw [runFixAux] at h
    cases hstep : (processEvent idx k ev).1 with
    | some fr =>
      rw [hstep] at h
      simp only [List.mem_cons] at h
      rcases h with h | h
      · subst h
        exact ⟨0, ev, by simp, by simpa using hstep⟩
      · obtain ⟨j, ev', hj, hp⟩ := ih (k + 1) f h
        refine ⟨j + 1, ev', by simpa using hj, ?_⟩
        have hk : k + (j + 1) = k + 1 + j := by omega
        rw [hk]
        exact hp
    | none =>
      rw [hstep] at h
      obtain ⟨j, ev', hj, hp⟩ := ih (k + 1) f h
      refine ⟨j + 1, ev', by simpa using hj, ?_⟩
      have hk : k + (j + 1) = k + 1 + j := by omega
      rw [hk]
      exact hp

/-- Evaluation of one mismatch record: similarity 0 to its current raw
    entry, no candidate above the floor, so the step changes nothing. -/
theorem processEvent_mismatch_concrete :
    processEvent
      [("1".toList, RawEventEntry.mk "1".toList "bbbbbbbbbb".toList
          (normalizeEventName "bbbbbbbbbb".toList))] 0
      (EventRec.mk "aaaaaaaaaa".toList
        (some "https://www.facebook.com/events/1".toList)) =
      (none, EventRec.mk "aaaaaaaaaa".toList
        (some "https://www.facebook.com/events/1".toList)) := by
  have hn : normalizeEventName "aaaaaaaaaa".toList = "aaaaaaaaaa".toList := by decide
  have hnb : normalizeEventName "bbbbbbbbbb".toList = "bbbbbbbbbb".toList := by decide
  have hs0 : calculateSimilarity "aaaaaaaaaa".toList "bbbbbbbbbb".toList = 0 := by
    have hd : levenshteinDistance "aaaaaaaaaa".toList "bbbbbbbbbb".toList = 10 := by decide
    have hm : max "aaaaaaaaaa".toList.length "bbbbbbbbbb".toList.length = 10 := by decide
    rw [calculateSimilarity_formula, hd, hm]
    norm_num
  have hlt : ¬ calculateSimilarity (normalizeEventName "aaaaaaaaaa".toList)
      (normalizeEventName "bbbbbbbbbb".toList) ≥ 7/10 := by
    rw [hn, hnb, hs0]; norm_num
  have hfindnone : findCorrectEventId "aaaaaaaaaa".toList
      [("1".toList, RawEventEntry.mk "1".toList "bbbbbbbbbb".toList
          (normalizeEventName "bbbbbbbbbb".toList))] = none := by
    rw [findCorrectEventId_none_iff]
    intro p hp
    simp only [List.mem_singleton] at hp
    subst hp
    rw [show (("1".toList, RawEventEntry.mk "1".toList "bbbbbbbbbb".toList
        (normalizeEventName "bbbbbbbbbb".toList))).2.normalizedName =
        normalizeEventName "bbbbbbbbbb".toList from rfl, hn, hnb, hs0]
    norm_num
  have hext : extractIdFromLink "https://www.facebook.com/events/1".toList =
      some "1".toList := by decide
  have hlook : indexLookup
      [("1".toList, RawEventEntry.mk "1".toList "bbbbbbbbbb".toList
          (normalizeEventName "bbbbbbbbbb".toList))] "1".toList =
      some (RawEventEntry.mk "1".toList "bbbbbbbbbb".toList
        (normalizeEventName "bbbbbbbbbb".toList)) := by decide
  simp only [processEvent, hext, hlook]
  rw [if_neg hlt]
  simp only [hfindnone]

/-- C7 counterexample: a record whose current reference has similarity
    0 and for which no replacement passes the floor is a mismatch with
    no confident replacement; the fix report of the run is empty — the
    record is absent from the audit log (only `console.log` text
    mentions it), while its reference is silently left as-is. -/
theorem C7_counterexample :
    calculateSimilarity (normalizeEventName "aaaaaaaaaa".toList)
      (normalizeEventName "bbbbbbbbbb".toList) < 7/10 ∧
    findCorrectEventId "aaaaaaaaaa".toList
      [("1".toList, RawEventEntry.mk "1".toList "bbbbbbbbbb".toList
          (normalizeEventName "bbbbbbbbbb".toList))] = none ∧
    fixFacebookLinks
      [("1".toList, RawEventEntry.mk "1".toList "bbbbbbbbbb".toList
          (normalizeEventName "bbbbbbbbbb".toList))]
      [EventRec.mk "aaaaaaaaaa".toList
        (some "https://www.facebook.com/events/1".toList)] =
      (0, [],
        [EventRec.mk "aaaaaaaaaa".toList
          (some "https://www.facebook.com/events/1".toList)]) := by
  refine ⟨?_, ?_, ?_⟩
  · have hn : normalizeEventName "aaaaaaaaaa".toList = "aaaaaaaaaa".toList := by decide
    have hnb : normalizeEventName "bbbbbbbbbb".toList = "bbbbbbbbbb".toList := by decide
    have hs0 : calculateSimilarity "aaaaaaaaaa".toList "bbbbbbbbbb".toList = 0 := by
      have hd : levenshteinDistance "aaaaaaaaaa".toList "bbbbbbbbbb".toList = 10 := by decide
      have hm : max "aaaaaaaaaa".toList.length "bbbbbbbbbb".toList.length = 10 := by decide
      rw [calculateSimilarity_formula, hd, hm]
      norm_num
    rw [hn, hnb, hs0]
    norm_num
  · have h := processEvent_mismatch_concrete
    rcases processEvent_eq
        [("1".toList, RawEventEntry.mk "1".toList "bbbbbbbbbb".toList
            (normalizeEventName "bbbbbbbbbb".toList))] 0
        (EventRec.mk "aaaaaaaaaa".toList
          (some "https://www.facebook.com/events/1".toList)) with h1 | h1
    · -- derive `findCorrectEventId = none` directly as in the step lemma
      clear h1
      rw [findCorrectEventId_none_iff]
      intro p hp
      simp only [List.mem_singleton] at hp
      subst hp
      have hn : normalizeEventName "aaaaaaaaaa".toList = "aaaaaaaaaa".toList := by decide
      have hnb : normalizeEventName "bbbbbbbbbb".toList = "bbbbbbbbbb".toList := by decide
      have hs0 : calculateSimilarity "aaaaaaaaaa".toList "bbbbbbbbbb".toList = 0 := by
        have hd : levenshteinDistance "aaaaaaaaaa".toList "bbbbbbbbbb".toList = 10 := by
          decide
        have hm : max "aaaaaaaaaa".toList.length "bbbbbbbbbb".toList.length = 10 := by
          decide
        rw [calculateSimilarity_formula, hd, hm]
        norm_num
      rw [show (("1".toList, RawEventEntry.mk "1".toList "bbbbbbbbbb".toList
          (normalizeEventName "bbbbbbbbbb".toList))).2.normalizedName =
          normalizeEventName "bbbbbbbbbb".toList from rfl, hn, hnb, hs0]
      norm_num
    · obtain ⟨link, currentId, currentRaw, m, _, _, _, _, _, _, hfix⟩ := h1
      rw [h] at hfix
      cases hfix
  · rw [fixFacebookLinks]
    simp only [runFixAux, processEvent_mismatch_concrete]
    rfl

/-- C7 (amended): a record for which the reconciler emits no correction
    — in particular every mismatch with no confident replacement — is
    left exactly as it was in the output catalog, and no entry of the
    fix report refers to it; the report records only the corrected
    records, so a mismatch is visible only through the absence of a
    report entry. -/
theorem C7_mismatch_not_logged (idx : List (List Char × RawEventEntry))
    (events : List EventRec) (i : ℕ) (ev : EventRec)
    (hev : events.get? i = some ev)
    (hnofix : (processEvent idx i ev).1 = none) :
    (fixFacebookLinks idx events).2.2.get? i = some ev ∧
    ∀ f ∈ (fixFacebookLinks idx events).2.1, ¬ f.eventIndex = i + 1 := by
  constructor
  · show (runFixAux idx 0 events).2.get? i = some ev
    rw [runFixAux_get idx events 0 i, hev]
    rw [show (0 : ℕ) + i = i from by omega]
    simp [processEvent_none_snd hnofix]
  · intro f hf hidx
    obtain ⟨j, ev', hj, hp⟩ := runFixAux_fix_src idx events 0 f hf
    rw [show (0 : ℕ) + j = j from by omega] at hp
    have hji : j + 1 = i + 1 := by
      rw [← processEvent_fix_index hp]
      rw [hidx]
    have hji' : j = i := by omega
    subst hji'
    rw [hev] at hj
    cases hj
    rw [hnofix] at hp
    cases hp

/-- C7 witness: the concrete mismatch record, absent from the report
    and unchanged. -/
theorem C7_witness :
    (fixFacebookLinks
      [("1".toList, RawEventEntry.mk "1".toList "bbbbbbbbbb".toList
          (normalizeEventName "bbbbbbbbbb".toList))]
      [EventRec.mk "aaaaaaaaaa".toList
        (some "https://www.facebook.com/events/1".toList)]).2.2.get? 0 =
      some (EventRec.mk "aaaaaaaaaa".toList
        (some "https://www.facebook.com/events/1".toList)) ∧
    ∀ f ∈ (fixFacebookLinks
      [("1".toList, RawEventEntry.mk "1".toList "bbbbbbbbbb".toList
          (normalizeEventName "bbbbbbbbbb".toList))]
      [EventRec.mk "aaaaaaaaaa".toList
        (some "https://www.facebook.com/events/1".toList)]).2.1,
      ¬ f.eventIndex = 0 + 1 :=
  C7_mismatch_not_logged
    [("1".toList, RawEventEntry.mk "1".toList "bbbbbbbbbb".toList
        (normalizeEventName "bbbbbbbbbb".toList))]
    [EventRec.mk "aaaaaaaaaa".toList
      (some "https://www.facebook.com/events/1".toList)] 0
    (EventRec.mk "aaaaaaaaaa".toList
      (some "https://www.facebook.com/events/1".toList))
    rfl (by rw [processEvent_mismatch_concrete])

/-- C9 witness: a concrete digit-id index with unique keys. -/
theorem C9_witness :
    fixFacebookLinks
      [("1".toList, RawEventEntry.mk "1".toList "run club".toList
          (normalizeEventName "run club".toList))]
      (fixFacebookLinks
        [("1".toList, RawEventEntry.mk "1".toList "run club".toList
            (normalizeEventName "run club".toList))] []).2.2 =
      (0, [],
        (fixFacebookLinks
          [("1".toList, RawEventEntry.mk "1".toList "run club".toList
              (normalizeEventName "run club".toList))] []).2.2) :=
  C9_second_run_is_noop
    [("1".toList, RawEventEntry.mk "1".toList "run club".toList
        (normalizeEventName "run club".toList))] []
    (by decide) (by decide)

/-- Helper for C8: prepending a BOM does not change the trimmed text,
    since U+FEFF is ECMAScript whitespace for `trim`. -/
theorem jsTrim_feff_cons (body : List Char) (h : jsTrim body = body) :
    jsTrim ('\ufeff' :: body) = body := by
  show (((('\ufeff' :: body).dropWhile isJsSpace).reverse.dropWhile isJsSpace)).reverse = body
  rw [List.dropWhile_cons, if_pos (by decide)]
  exact h

/-- C8: `parseEventsJson` tolerates a leading byte-order mark (stripped by
    the initial trim, U+FEFF being ECMAScript whitespace), repairs trailing
    commas before `]`/the closing brace and a leading BOM when the first
    parse fails, wraps a single top-level object into a one-element array,
    and is fatal exactly when both parse attempts fail; concretely, a
    BOM-prefixed array, `[1,2,]`, and a bare object all parse to the
    expected record arrays while `nope` is a fatal error. -/
theorem C8_parse_repairs :
    (∀ body vs, jsTrim body = body → body.head? = some '[' →
      jsonParse body = some (JsonVal.arr vs) →
      parseEventsJson ('\ufeff' :: body) = Except.ok vs)
    ∧ (∀ file vs, jsonParse (prepRaw file) = none →
        jsonParse (stripLeadingFeff (removeTrailingCommas (prepRaw file))) =
          some (JsonVal.arr vs) →
        parseEventsJson file = Except.ok vs)
    ∧ (∀ body vs, jsTrim body = body → body.head? = some '\x7b' →
        jsonParse ('[' :: body ++ [']']) = some (JsonVal.arr vs) →
        parseEventsJson body = Except.ok vs)
    ∧ (∀ file, jsonParse (prepRaw file) = none →
        jsonParse (stripLeadingFeff (removeTrailingCommas (prepRaw file))) = none →
        parseEventsJson file = Except.error "Failed to parse events.json".toList)
    ∧ parseEventsJson ('\ufeff' :: "[1,2]".toList) =
        Except.ok [JsonVal.num 1 0, JsonVal.num 2 0]
    ∧ parseEventsJson "[1,2,]".toList = Except.ok [JsonVal.num 1 0, JsonVal.num 2 0]
    ∧ parseEventsJson "\x7b\"a\": 1\x7d".toList =
        Except.ok [JsonVal.obj [("a".toList, JsonVal.num 1 0)]]
    ∧ parseEventsJson "nope".toList =
        Except.error "Failed to parse events.json".toList := by
  refine ⟨?_, ?_, ?_, ?_, by rfl, by rfl, by rfl, by rfl⟩
  · intro body vs htrim hhead hparse
    have h1 : jsTrim ('\ufeff' :: body) = body := jsTrim_feff_cons body htrim
    have hraw : prepRaw ('\ufeff' :: body) = body := by
      simp [prepRaw, h1, hhead]
    simp only [parseEventsJson, hraw, hparse, jsonRootArray]
  · intro file vs h1 h2
    simp only [parseEventsJson, h1, h2, jsonRootArray]
  · intro body vs htrim hhead hparse
    have hraw : prepRaw body = '[' :: body ++ [']'] := by
      simp [prepRaw, htrim, hhead]
    simp only [parseEventsJson, hraw, hparse, jsonRootArray]
  · intro file h1 h2
    simp only [parseEventsJson, h1, h2]

/-- C8 witness: the BOM branch applied to the concrete body `[true]`. -/
theorem C8_witness :
    parseEventsJson ('\ufeff' :: "[true]".toList) = Except.ok [JsonVal.bool true] :=
  C8_parse_repairs.1 "[true]".toList [JsonVal.bool true] rfl rfl rfl

end BdRaces
